import Mathlib

/-!
# Genetic-algorithm TSP core: `Chromosome` and `Deme`

A shallow embedding of `src/chromosome.cc` and `src/deme.cc`.

Modelling conventions.

* A permutation (`Cities::permutation_t`, a vector of unsigned integers) is a `List Nat`.
  Indices and values are natural numbers. The source moves indices between `int`,
  `unsigned` and `size_t`; these conversions preserve the value as long as a tour has
  fewer than `2 ^ 31` cities, which is assumed throughout, so they are not represented.
* `double` values are exact rationals (`ℚ`).
* A call that does not return normally yields a `Fault`: undefined behaviour (a read past
  the end of a vector, a modulo by zero, `back()` of an empty vector), a failed `assert`,
  or `starved`, which says that the random source was exhausted before the call returned.
* A random engine is the list of outputs it has yet to deliver. A `while` loop that
  resamples consumes this list, so a run that never leaves the loop is a run that is
  `starved` on every list.
* Individuals of a population are referred to by their position in `pop_` (the source
  uses pointers; two pointers are equal exactly when the positions are).
-/

namespace TSP

/-- Ways in which a call fails to return a value. -/
inductive Fault where
  | undefined
  | assertion
  | starved
deriving DecidableEq, Repr

deriving instance DecidableEq for Except

/-- The city set, an external collaborator: only its size and the length of a tour are
used by the core. -/
structure Cities where
  size : Nat
  total_path_distance : List Nat → ℚ

/-- A chromosome: the tour `order_` and the outputs still to come from its private
engine `generator_`. The shared `cities_ptr_` is passed to the functions that need it. -/
structure Chromosome where
  order_ : List Nat
  generator_ : List Nat
deriving DecidableEq, Repr

/-- The loop of `Chromosome::is_valid` over the sorted copy, started at index `i`:
it fails at the first index that differs from the value stored there. -/
def is_valid_scan : List Nat → Nat → Bool
  | [], _ => true
  | x :: rest, i => if i ≠ x then false else is_valid_scan rest (i + 1)

/-- Embedding of `Chromosome::is_valid`: sort a copy of the order and compare each value with its
index. `std::sort` is rendered by insertion sort. -/
def is_valid (order : List Nat) : Bool :=
  is_valid_scan (order.insertionSort (· ≤ ·)) 0

/-- The loop of `Chromosome::is_in_range`, at index `i`. Reading `order_[i]` past the end
is undefined. The first argument bounds the number of iterations; `order.length + 1`
iterations always reach either `i = end_` or a read past the end. -/
def is_in_range_loop (order : List Nat) (value end_ : Nat) : Nat → Nat → Except Fault Bool
  | 0, _ => .error .undefined
  | fuel + 1, i =>
    if i = end_ then .ok false
    else match order[i]? with
      | none => .error .undefined
      | some v => if v = value then .ok true else is_in_range_loop order value end_ fuel (i + 1)

/-- Embedding of `Chromosome::is_in_range`: does `value` occur in `order_[begin, end)`? -/
def is_in_range (order : List Nat) (value begin_ end_ : Nat) : Except Fault Bool :=
  is_in_range_loop order value end_ (order.length + 1) begin_

/-- The inner `while` of `create_crossover_child`: advance `j` while `p2[j]` lies in the
window `[b, e)` of `p1`. Reading `p2[j]` past the end is undefined. The first argument
bounds the number of iterations; `p2.length + 1` always suffice. -/
def skip_loop (p1 p2 : List Nat) (b e : Nat) : Nat → Nat → Except Fault Nat
  | 0, _ => .error .undefined
  | fuel + 1, j =>
    match p2[j]? with
    | none => .error .undefined
    | some v =>
      match is_in_range p1 v b e with
      | .error f => .error f
      | .ok true => skip_loop p1 p2 b e fuel (j + 1)
      | .ok false => .ok j

/-- The `for` loop of `create_crossover_child` in state `(child, i, j)`. The first
argument bounds the number of iterations; `p1.length + 1` always suffice, because `i`
grows by one per iteration and the loop stops at `i = p1.length`. -/
def crossover_loop (p1 p2 : List Nat) (b e : Nat) :
    Nat → List Nat → Nat → Nat → Except Fault (List Nat)
  | 0, _, _, _ => .error .undefined
  | fuel + 1, child, i, j =>
    if hi : i < p1.length then
      if j < p2.length then
        if b ≤ i ∧ i < e then
          crossover_loop p1 p2 b e fuel (child.set i p1[i]) (i + 1) j
        else
          match skip_loop p1 p2 b e (p2.length + 1) j with
          | .error f => .error f
          | .ok j1 =>
            if hj : j1 < p2.length then
              crossover_loop p1 p2 b e fuel (child.set i p2[j1]) (i + 1) (j1 + 1)
            else .error .assertion
      else .ok child
    else .ok child

/-- The order computed by `create_crossover_child` before its closing assertion: the
child starts as a copy of `p1` and is then overwritten by the loop. -/
def crossover_order (p1 p2 : List Nat) (b e : Nat) : Except Fault (List Nat) :=
  crossover_loop p1 p2 b e (p1.length + 1) p1 0 0

/-- Embedding of `Chromosome::create_crossover_child`. The child is `p1->clone()`, a copy of `p1`
(engine included), with its order rewritten; the closing `assert(child->is_valid())` is
part of the call. -/
def create_crossover_child (p1 p2 : Chromosome) (b e : Nat) : Except Fault Chromosome :=
  match crossover_order p1.order_ p2.order_ b e with
  | .error f => .error f
  | .ok order => if is_valid order then .ok { p1 with order_ := order } else .error .assertion

/-- Embedding of `std::swap(order_[i], order_[j])`. -/
def swap (order : List Nat) (i j : Nat) : List Nat :=
  (order.set i (order.getD j 0)).set j (order.getD i 0)

/-- The `while (index2 == index1)` loop of `Chromosome::mutate`: one engine output is
consumed per iteration. -/
def resample (n index1 : Nat) : List Nat → Nat → Except Fault (Nat × List Nat)
  | [], index2 => if index2 = index1 then .error .starved else .ok (index2, [])
  | g :: gs, index2 =>
    if index2 = index1 then resample n index1 gs (g % n) else .ok (index2, g :: gs)

/-- The body of `Chromosome::mutate` up to its closing assertion: draw two indices,
resample the second until it differs from the first, and swap. A modulo by
`order_.size() = 0` is undefined. -/
def mutate_swap (c : Chromosome) : Except Fault Chromosome :=
  if c.order_.length = 0 then .error .undefined
  else match c.generator_ with
    | g1 :: g2 :: gs =>
      match resample c.order_.length (g1 % c.order_.length) gs (g2 % c.order_.length) with
      | .error f => .error f
      | .ok (index2, gen) =>
        .ok { order_ := swap c.order_ (g1 % c.order_.length) index2, generator_ := gen }
    | _ => .error .starved

/-- Embedding of `Chromosome::mutate`: the swap followed by `assert(is_valid())`. -/
def mutate (c : Chromosome) : Except Fault Chromosome :=
  match mutate_swap c with
  | .error f => .error f
  | .ok c1 => if is_valid c1.order_ then .ok c1 else .error .assertion

/-- The window `[start, finish)` drawn by `Chromosome::recombine`, with the engine that
remains: `finish` is an output modulo the size, `start` is `0` when `finish` is `0` and a
second output modulo `finish` otherwise. -/
def draw_window (n : Nat) : List Nat → Except Fault (Nat × Nat × List Nat)
  | [] => .error .starved
  | g1 :: gs =>
    if g1 % n = 0 then .ok (0, 0, gs)
    else match gs with
      | [] => .error .starved
      | g2 :: gs2 => .ok (g2 % (g1 % n), g1 % n, gs2)

/-- Embedding of `Chromosome::recombine`: returns the receiver (its engine has advanced) and the two
children. Both parents are asserted valid on entry. -/
def recombine (this other : Chromosome) :
    Except Fault (Chromosome × Chromosome × Chromosome) :=
  if ¬ is_valid this.order_ then .error .assertion
  else if ¬ is_valid other.order_ then .error .assertion
  else if this.order_.length = 0 then .error .undefined
  else match draw_window this.order_.length this.generator_ with
    | .error f => .error f
    | .ok (start, finish, gen) =>
      match create_crossover_child { this with generator_ := gen } other start finish with
      | .error f => .error f
      | .ok child1 =>
        match create_crossover_child other { this with generator_ := gen } start finish with
        | .error f => .error f
        | .ok child2 => .ok ({ this with generator_ := gen }, child1, child2)

/-- Embedding of `Chromosome::get_fitness`: one over the length of the tour. On a tour of
length zero the source computes `1.0 / 0.0`, an infinite value, while this quotient is `0`;
the two agree on every tour of positive length, and statements about fitness values are
made for such tours. -/
def get_fitness (cities : Cities) (c : Chromosome) : ℚ :=
  1 / cities.total_path_distance c.order_

/-- A deme: the population, the mutation rate, the canonical draws in `[0, 1)` still to
come from its engine, and `distri_hi`, the upper bound stored in the function-local
static distribution of `select_parent` (`none` until the first call constructs it). -/
structure Deme where
  pop_ : List Chromosome
  mut_rate_ : ℚ
  generator_ : List ℚ
  distri_hi : Option ℚ
deriving DecidableEq

/-- The loop of `Deme::get_best` over the individuals from position `k` on, carrying
`best` and `best_fit`. -/
def get_best_scan (cities : Cities) : List Chromosome → Nat → Option Nat → ℚ → Option Nat
  | [], _, best, _ => best
  | v :: rest, k, best, best_fit =>
    if get_fitness cities v < best_fit then
      get_best_scan cities rest (k + 1) (some k) (get_fitness cities v)
    else get_best_scan cities rest (k + 1) best best_fit

/-- Embedding of `Deme::get_best`: the position of the returned individual; `best` starts as the null
pointer with `best_fit = 100000`, and the call asserts that `best` is not null. -/
def get_best (cities : Cities) (d : Deme) : Except Fault Nat :=
  match get_best_scan cities d.pop_ 0 none 100000 with
  | none => .error .assertion
  | some k => .ok k

/-- The first loop of `Deme::select_parent`: the running total of the fitness values. -/
def total_fitness (cities : Cities) (pop : List Chromosome) : ℚ :=
  pop.foldl (fun acc v => acc + get_fitness cities v) 0

/-- The second loop of `Deme::select_parent` from position `k` on: add each fitness to
`start_fitn` and return the first position at which the sum exceeds `total_fitn`. -/
def select_scan (cities : Cities) (total_fitn : ℚ) : List Chromosome → ℚ → Nat → Option Nat
  | [], _, _ => none
  | v :: rest, start_fitn, k =>
    if start_fitn + get_fitness cities v > total_fitn then some k
    else select_scan cities total_fitn rest (start_fitn + get_fitness cities v) (k + 1)

/-- The individual returned by `Deme::select_parent` once `start_fitn` has been drawn:
the result of the scan, or the last individual when the scan finds none. -/
def select_from (cities : Cities) (pop : List Chromosome) (start_fitn : ℚ) :
    Except Fault Nat :=
  match select_scan cities (total_fitness cities pop) pop start_fitn 0 with
  | some k => .ok k
  | none => if pop.length = 0 then .error .undefined else .ok (pop.length - 1)

/-- Embedding of `Deme::select_parent`. The static distribution is constructed with the total fitness
of the first call and keeps that bound; a draw is the bound times a canonical draw. -/
def select_parent (cities : Cities) (d : Deme) : Except Fault (Nat × Deme) :=
  match d.generator_ with
  | [] => .error .starved
  | u :: us =>
    match select_from cities d.pop_ (d.distri_hi.getD (total_fitness cities d.pop_) * u) with
    | .error f => .error f
    | .ok k =>
      .ok (k, { d with generator_ := us,
                       distri_hi := some (d.distri_hi.getD (total_fitness cities d.pop_)) })

/-- The `while (parent1 == parent2)` loop of `compute_next_generation`. Each iteration
consumes one draw, so the bound `d.generator_.length` is reached only with an exhausted
engine. -/
def reselect (cities : Cities) (parent1 : Nat) : Nat → Nat → Deme → Except Fault (Nat × Deme)
  | 0, parent2, d => if parent1 = parent2 then .error .starved else .ok (parent2, d)
  | fuel + 1, parent2, d =>
    if parent1 = parent2 then
      match select_parent cities d with
      | .error f => .error f
      | .ok (p, d1) => reselect cities parent1 fuel p d1
    else .ok (parent2, d)

/-- One of the two mutation steps of `compute_next_generation`: draw `mutate_val` and
mutate the individual at position `parent`, in place, when it is below the rate. -/
def maybe_mutate (parent : Nat) (d : Deme) : Except Fault Deme :=
  match d.generator_ with
  | [] => .error .starved
  | mutate_val :: us =>
    if mutate_val < d.mut_rate_ then
      match d.pop_[parent]? with
      | none => .error .undefined
      | some c =>
        match mutate c with
        | .error f => .error f
        | .ok c1 => .ok { d with pop_ := d.pop_.set parent c1, generator_ := us }
    else .ok { d with generator_ := us }

/-- The body of the `for` loop of `compute_next_generation`: select two distinct parents,
mutate each with probability `mut_rate_`, recombine. Returns the deme (parents are
modified in place) and the two kids. -/
def breed (cities : Cities) (d : Deme) : Except Fault (Deme × Chromosome × Chromosome) :=
  match select_parent cities d with
  | .error f => .error f
  | .ok (parent1, d1) =>
    match select_parent cities d1 with
    | .error f => .error f
    | .ok (p, d2) =>
      match reselect cities parent1 d2.generator_.length p d2 with
      | .error f => .error f
      | .ok (parent2, d3) =>
        match maybe_mutate parent1 d3 with
        | .error f => .error f
        | .ok d4 =>
          match maybe_mutate parent2 d4 with
          | .error f => .error f
          | .ok d5 =>
            match d5.pop_[parent1]?, d5.pop_[parent2]? with
            | some c1, some c2 =>
              match recombine c1 c2 with
              | .error f => .error f
              | .ok (c1', kid1, kid2) =>
                .ok ({ d5 with pop_ := d5.pop_.set parent1 c1' }, kid1, kid2)
            | _, _ => .error .undefined

/-- The `for` loop of `compute_next_generation`, with `count` iterations left. -/
def generation_loop (cities : Cities) :
    Nat → Deme → List Chromosome → Except Fault (Deme × List Chromosome)
  | 0, d, new_pop => .ok (d, new_pop)
  | count + 1, d, new_pop =>
    match breed cities d with
    | .error f => .error f
    | .ok (d1, kid1, kid2) => generation_loop cities count d1 (new_pop ++ [kid1, kid2])

/-- Embedding of `Deme::compute_next_generation`: `pop_.size() / 2` rounds of breeding, then the old
population is replaced by the new one. -/
def compute_next_generation (cities : Cities) (d : Deme) : Except Fault Deme :=
  match generation_loop cities (d.pop_.length / 2) d [] with
  | .error f => .error f
  | .ok (d1, new_pop) => .ok { d1 with pop_ := new_pop }

/-- The length of the open path through `order` under the distance table `dist`. -/
def path_length (dist : Nat → Nat → ℚ) : List Nat → ℚ
  | a :: b :: rest => dist a b + path_length dist (b :: rest)
  | _ => 0

/-- Modelled from the spec: `Cities::total_path_distance` is not among the sources; the
spec describes it as the sum of the distances along the tour, including the return to the
start. -/
def tour_length (dist : Nat → Nat → ℚ) (order : List Nat) : ℚ :=
  match order.head?, order.getLast? with
  | some first, some last => path_length dist order + dist last first
  | _, _ => 0

/-- The distances between the corners `(0,0)`, `(3,0)`, `(3,4)`, `(0,4)` of a rectangle,
numbered `0` to `3`: sides `3` and `4`, diagonals `5`. -/
def rectangle_distance (i j : Nat) : ℚ :=
  if i = j then 0
  else if i + j = 1 ∨ i + j = 5 then 3
  else if i + j = 3 then 4
  else 5

/-- Four cities at the corners of a 3 by 4 rectangle. -/
def rectangle : Cities :=
  { size := 4, total_path_distance := tour_length rectangle_distance }

/-- A result that is either a value satisfying `Q` or the exhaustion of the random
source: never undefined behaviour and never a failed assertion. -/
def SafeResult {α : Type} (r : Except Fault α) (Q : α → Prop) : Prop :=
  r = .error .starved ∨ ∃ x, r = .ok x ∧ Q x

/-- Three tours of the rectangle with their engines, a mutation rate of one half and six
canonical draws; the static distribution of `select_parent` is not yet constructed. -/
def example_deme : Deme :=
  { pop_ := [⟨[0, 1, 2, 3], [1, 2, 3, 4]⟩, ⟨[0, 2, 1, 3], [1, 2, 3, 4]⟩,
             ⟨[0, 1, 3, 2], [5, 6, 7]⟩],
    mut_rate_ := 1 / 2,
    generator_ := [1 / 3, 1 / 3, 9 / 10, 1 / 4, 3 / 4, 1 / 2],
    distri_hi := none }

/-- The deme that one generation step makes of `example_deme`. -/
def example_next : Deme :=
  { pop_ := [⟨[0, 1, 2, 3], []⟩, ⟨[0, 1, 2, 3], [1, 2, 3, 4]⟩],
    mut_rate_ := 1 / 2,
    generator_ := [1 / 2],
    distri_hi := some (191 / 1008) }

/-- The sum of the fitness values of the first `i` individuals of `pop`. -/
def cumulative_fitness (cities : Cities) (pop : List Chromosome) (i : Nat) : ℚ :=
  ((pop.take i).map (get_fitness cities)).sum

/-- The values `p1[b, e)` of the primary parent. -/
def window (p1 : List Nat) (b e : Nat) : List Nat :=
  (p1.drop b).take (e - b)

/-- The values of the secondary parent that are not in the window of the primary one, in
the order of the secondary parent. -/
def outside (p1 p2 : List Nat) (b e : Nat) : List Nat :=
  p2.filter (fun v => !decide (v ∈ window p1 b e))

/-- The child described by ordered crossover: the window of the primary parent in place,
and around it the values of `outside`, in order. -/
def crossover_spec (p1 p2 : List Nat) (b e : Nat) : List Nat :=
  (outside p1 p2 b e).take b ++ (window p1 b e ++ (outside p1 p2 b e).drop b)

/-- The value `start_fitn` that `Deme::select_parent` draws when the engine delivers the
canonical draw `u`: the bound held by the static distribution (the total fitness of the
current call only if this call constructs the distribution) times `u`. -/
def select_draw (cities : Cities) (d : Deme) (u : ℚ) : ℚ :=
  d.distri_hi.getD (total_fitness cities d.pop_) * u

/-- Two cities at distance `1 / 262144` from each other: every tour through both has
length `1 / 131072`. Both numbers are powers of two, so the distance, the tour length and
the fitness `131072` are the same in `double` arithmetic as here. -/
def close_pair : Cities :=
  { size := 2,
    total_path_distance := tour_length (fun i j => if i = j then 0 else 1 / 262144) }

/-- The deme `example_deme` with `9 / 10` as its last canonical draw. -/
def stale_deme : Deme :=
  { example_deme with generator_ := [1 / 3, 1 / 3, 9 / 10, 1 / 4, 3 / 4, 9 / 10] }

/-- The deme that one generation step makes of `stale_deme`: the static distribution
holds `191 / 1008`, the total fitness of the population of `stale_deme`. -/
def stale_next : Deme :=
  { example_next with generator_ := [9 / 10] }

theorem is_valid_scan_iff (l : List Nat) (i : Nat) :
    is_valid_scan l i = true ↔ l = List.range' i l.length := by
  induction l generalizing i with
  | nil => simp [is_valid_scan]
  | cons x rest ih =>
    simp only [is_valid_scan, List.length_cons, List.range'_succ]
    by_cases hx : i = x
    · subst hx
      simp [ih]
    · simp only [hx, ne_eq, not_false_eq_true, if_true, List.cons.injEq]
      constructor
      · intro h; cases h
      · intro h; exact absurd h.1.symm hx

theorem is_valid_iff_sorted (order : List Nat) :
    is_valid order = true ↔ order.insertionSort (· ≤ ·) = List.range order.length := by
  unfold is_valid
  rw [is_valid_scan_iff, List.length_insertionSort, List.range_eq_range']

theorem is_valid_iff_perm (order : List Nat) :
    is_valid order = true ↔ order.Perm (List.range order.length) := by
  rw [is_valid_iff_sorted]
  constructor
  · intro h
    have hp := List.perm_insertionSort (· ≤ ·) order
    rw [h] at hp
    exact hp.symm
  · intro h
    exact List.eq_of_perm_of_sorted ((List.perm_insertionSort (· ≤ ·) order).trans h)
      (List.sorted_insertionSort (· ≤ ·) order) (List.sorted_le_range _)

theorem perm_range_iff_count (order : List Nat) :
    order.Perm (List.range order.length) ↔ ∀ k, k < order.length → order.count k = 1 := by
  constructor
  · intro h k hk
    rw [h.count_eq]
    exact List.count_eq_one_of_mem (List.nodup_range _) (List.mem_range.mpr hk)
  · intro h
    have hsub : List.range order.length ⊆ order := by
      intro k hk
      have := h k (List.mem_range.mp hk)
      exact List.count_pos_iff.mp (by omega)
    have hsp := List.subperm_of_subset (List.nodup_range order.length) hsub
    exact (hsp.perm_of_length_le (by simp)).symm

theorem perm_range_iff_nodup (order : List Nat) :
    order.Perm (List.range order.length) ↔ order.Nodup ∧ ∀ v ∈ order, v < order.length := by
  constructor
  · intro h
    refine ⟨h.nodup_iff.mpr (List.nodup_range _), fun v hv => ?_⟩
    exact List.mem_range.mp (h.subset hv)
  · rintro ⟨hnd, hlt⟩
    have hsub : order ⊆ List.range order.length := fun v hv => List.mem_range.mpr (hlt v hv)
    exact (List.subperm_of_subset hnd hsub).perm_of_length_le (by simp)

theorem perm_range_length {order : List Nat} {n : Nat} (h : order.Perm (List.range n)) :
    order.length = n := by
  simpa using h.length_eq

/-! ## Ordered crossover -/

theorem is_in_range_loop_spec (order : List Nat) (value e : Nat) (he : e ≤ order.length) :
    ∀ fuel i, i ≤ e → e - i < fuel →
      is_in_range_loop order value e fuel i
        = .ok (decide (value ∈ (order.drop i).take (e - i))) := by
  intro fuel
  induction fuel with
  | zero => intro i _ h; omega
  | succ fuel ih =>
    intro i hie hf
    unfold is_in_range_loop
    by_cases h : i = e
    · subst h
      simp
    · have hi : i < order.length := by omega
      have hstep : e - i = (e - (i + 1)) + 1 := by omega
      rw [if_neg h, List.getElem?_eq_getElem hi]
      simp only
      rw [List.drop_eq_getElem_cons hi, hstep, List.take_succ_cons]
      by_cases hv : order[i] = value
      · simp [hv]
      · rw [if_neg hv, ih (i + 1) (by omega) (by omega)]
        have hv2 : ¬ value = order[i] := fun h => hv h.symm
        simp [hv2]

theorem is_in_range_spec (order : List Nat) (value b e : Nat) (hbe : b ≤ e)
    (he : e ≤ order.length) :
    is_in_range order value b e = .ok (decide (value ∈ window order b e)) := by
  unfold is_in_range window
  exact is_in_range_loop_spec order value e he _ b hbe (by omega)

theorem take_succ_of_lt (l : List Nat) (j : Nat) (h : j < l.length) :
    l.take (j + 1) = l.take j ++ [l[j]] := by
  rw [List.take_succ, List.getElem?_eq_getElem h]
  rfl

theorem skip_loop_spec (p1 p2 : List Nat) (b e : Nat) (hbe : b ≤ e) (he : e ≤ p1.length) :
    ∀ fuel j c (hc : c < (outside p1 p2 b e).length), p2.length < fuel + j →
      (p2.take j).filter (fun v => !decide (v ∈ window p1 b e)) = (outside p1 p2 b e).take c →
      ∃ j1, skip_loop p1 p2 b e fuel j = .ok j1 ∧ ∃ h : j1 < p2.length,
        p2[j1] = (outside p1 p2 b e)[c]
        ∧ (p2.take (j1 + 1)).filter (fun v => !decide (v ∈ window p1 b e))
            = (outside p1 p2 b e).take (c + 1) := by
  intro fuel
  induction fuel with
  | zero =>
    intro j c hc hf hinv
    exfalso
    rw [List.take_of_length_le (by omega)] at hinv
    have := congrArg List.length hinv
    simp only [outside, List.length_take] at this hc
    omega
  | succ fuel ih =>
    intro j c hc hf hinv
    have hj : j < p2.length := by
      by_contra hj
      rw [List.take_of_length_le (by omega)] at hinv
      have := congrArg List.length hinv
      simp only [outside, List.length_take] at this hc
      omega
    unfold skip_loop
    rw [List.getElem?_eq_getElem hj]
    simp only
    rw [is_in_range_spec p1 _ b e hbe he]
    by_cases hmem : p2[j] ∈ window p1 b e
    · simp only [hmem, decide_True]
      apply ih (j + 1) c hc (by omega)
      rw [take_succ_of_lt p2 j hj, List.filter_append, hinv]
      simp [hmem]
    · simp only [hmem, decide_False]
      refine ⟨j, rfl, hj, ?_⟩
      have hpre : (p2.take (j + 1)).filter (fun v => !decide (v ∈ window p1 b e))
          <+: outside p1 p2 b e := List.IsPrefix.filter _ (List.take_prefix _ _)
      have hcat : (p2.take (j + 1)).filter (fun v => !decide (v ∈ window p1 b e))
          = (outside p1 p2 b e).take c ++ [p2[j]] := by
        rw [take_succ_of_lt p2 j hj, List.filter_append, hinv]
        simp [hmem]
      have htk := List.prefix_iff_eq_take.mp hpre
      have hlen : ((p2.take (j + 1)).filter
          (fun v => !decide (v ∈ window p1 b e))).length = c + 1 := by
        rw [hcat]
        simp only [List.length_append, List.length_take, List.length_singleton]
        omega
      rw [hlen] at htk
      refine ⟨?_, htk⟩
      have h2 := take_succ_of_lt (outside p1 p2 b e) c hc
      rw [← htk, hcat] at h2
      have h3 := List.append_cancel_left h2
      simpa using h3

theorem window_length (p1 : List Nat) (b e : Nat) (he : e ≤ p1.length) :
    (window p1 b e).length = e - b := by
  simp only [window, List.length_take, List.length_drop]
  omega

theorem crossover_spec_length (p1 p2 : List Nat) (b e : Nat)
    (he : e ≤ p1.length) (hF : (outside p1 p2 b e).length + (e - b) = p1.length) :
    (crossover_spec p1 p2 b e).length = p1.length := by
  simp only [crossover_spec, List.length_append, List.length_take, List.length_drop,
    window_length p1 b e he]
  omega

theorem crossover_spec_window (p1 p2 : List Nat) (b e : Nat) (hbe : b ≤ e)
    (he : e ≤ p1.length) (hF : (outside p1 p2 b e).length + (e - b) = p1.length)
    (i : Nat) (h1 : b ≤ i) (h2 : i < e) :
    (crossover_spec p1 p2 b e)[i]? = p1[i]? := by
  have hb : ((outside p1 p2 b e).take b).length = b := by
    simp only [List.length_take]; omega
  unfold crossover_spec
  rw [List.getElem?_append_right (by omega), hb,
    List.getElem?_append_left (by rw [window_length p1 b e he]; omega)]
  simp only [window]
  rw [List.getElem?_take_of_lt (by omega), List.getElem?_drop]
  congr 1
  omega

theorem crossover_spec_outside (p1 p2 : List Nat) (b e : Nat) (hbe : b ≤ e)
    (he : e ≤ p1.length) (hF : (outside p1 p2 b e).length + (e - b) = p1.length)
    (i : Nat) (h : ¬ (b ≤ i ∧ i < e)) :
    (crossover_spec p1 p2 b e)[i]? = (outside p1 p2 b e)[min i b + (i - e)]? := by
  have hb : ((outside p1 p2 b e).take b).length = b := by
    simp only [List.length_take]; omega
  unfold crossover_spec
  by_cases hib : i < b
  · rw [List.getElem?_append_left (by omega), List.getElem?_take_of_lt hib]
    congr 1
    omega
  · have hie : e ≤ i := by omega
    rw [List.getElem?_append_right (by omega), hb,
      List.getElem?_append_right (by rw [window_length p1 b e he]; omega),
      window_length p1 b e he, List.getElem?_drop]
    congr 1
    omega

theorem set_take_append_drop (E p1 : List Nat) (i : Nat) (hE : i < E.length)
    (hp : i < p1.length) :
    (E.take i ++ p1.drop i).set i E[i] = E.take (i + 1) ++ p1.drop (i + 1) := by
  have hl : (E.take i).length = i := by
    simp only [List.length_take]; omega
  rw [List.set_append_right _ _ (by omega), hl, Nat.sub_self,
    List.drop_eq_getElem_cons hp, List.set_cons_zero, take_succ_of_lt E i hE]
  simp only [List.append_assoc, List.singleton_append]

theorem crossover_loop_spec (p1 p2 : List Nat) (b e : Nat) (hbe : b ≤ e)
    (he : e ≤ p1.length) (hlen : p2.length = p1.length)
    (hF : (outside p1 p2 b e).length + (e - b) = p1.length) :
    ∀ fuel child i j, i ≤ p1.length → p1.length < fuel + i →
      child = (crossover_spec p1 p2 b e).take i ++ p1.drop i →
      (p2.take j).filter (fun v => !decide (v ∈ window p1 b e))
        = (outside p1 p2 b e).take (min i b + (i - e)) →
      crossover_loop p1 p2 b e fuel child i j = .ok (crossover_spec p1 p2 b e) := by
  have hE := crossover_spec_length p1 p2 b e he hF
  intro fuel
  induction fuel with
  | zero => intro child i j hi hf; omega
  | succ fuel ih =>
    intro child i j hi hf hchild hinv
    unfold crossover_loop
    by_cases hin : i < p1.length
    · rw [dif_pos hin]
      by_cases hj : j < p2.length
      · rw [if_pos hj]
        by_cases hw : b ≤ i ∧ i < e
        · rw [if_pos hw]
          have hval : p1[i] = (crossover_spec p1 p2 b e)[i] := by
            have := crossover_spec_window p1 p2 b e hbe he hF i hw.1 hw.2
            rw [List.getElem?_eq_getElem (by omega), List.getElem?_eq_getElem hin] at this
            exact (Option.some.inj this).symm
          apply ih _ (i + 1) j (by omega) (by omega)
          · rw [hchild, hval]
            exact set_take_append_drop _ _ i (by omega) hin
          · rw [hinv]
            congr 1
            omega
        · rw [if_neg hw]
          have hc : min i b + (i - e) < (outside p1 p2 b e).length := by omega
          obtain ⟨j1, hskip, hj1, hval, hinv1⟩ :=
            skip_loop_spec p1 p2 b e hbe he (p2.length + 1) j _ hc (by omega) hinv
          rw [hskip]
          simp only
          rw [dif_pos hj1]
          have hval2 : p2[j1] = (crossover_spec p1 p2 b e)[i] := by
            have := crossover_spec_outside p1 p2 b e hbe he hF i hw
            rw [List.getElem?_eq_getElem (by omega), List.getElem?_eq_getElem hc] at this
            rw [hval]
            exact (Option.some.inj this).symm
          apply ih _ (i + 1) (j1 + 1) (by omega) (by omega)
          · rw [hchild, hval2]
            exact set_take_append_drop _ _ i (by omega) hin
          · rw [hinv1]
            congr 1
            omega
      · rw [if_neg hj]
        rw [List.take_of_length_le (by omega)] at hinv
        have hl := congrArg List.length hinv
        simp only [List.length_take] at hl
        change (outside p1 p2 b e).length = _ at hl
        have hbi : b ≤ i := by omega
        have hen : e = p1.length := by omega
        rw [hchild]
        congr 1
        conv_rhs => rw [← List.take_append_drop i (crossover_spec p1 p2 b e)]
        congr 1
        apply List.ext_getElem?
        intro k
        rw [List.getElem?_drop, List.getElem?_drop]
        by_cases hk : i + k < e
        · exact (crossover_spec_window p1 p2 b e hbe he hF (i + k) (by omega) hk).symm
        · rw [List.getElem?_eq_none (by omega), List.getElem?_eq_none (by omega)]
    · rw [dif_neg hin]
      have : i = p1.length := by omega
      rw [hchild, this, List.drop_length, List.append_nil, ← hE, List.take_length]

theorem window_sublist (p1 : List Nat) (b e : Nat) : (window p1 b e).Sublist p1 :=
  (List.take_sublist _ _).trans (List.drop_sublist _ _)

theorem filter_window_perm (p1 p2 : List Nat) (n b e : Nat)
    (h1 : p1.Perm (List.range n)) (h2 : p2.Perm (List.range n)) :
    (p2.filter (fun v => decide (v ∈ window p1 b e))).Perm (window p1 b e) := by
  have hnd1 : p1.Nodup := h1.nodup_iff.mpr (List.nodup_range n)
  have hnd2 : p2.Nodup := h2.nodup_iff.mpr (List.nodup_range n)
  refine (List.perm_ext_iff_of_nodup (hnd2.filter _)
    ((window_sublist p1 b e).nodup hnd1)).mpr (fun a => ?_)
  simp only [List.mem_filter, decide_eq_true_eq]
  constructor
  · exact fun h => h.2
  · intro h
    exact ⟨h2.symm.subset (h1.subset ((window_sublist p1 b e).subset h)), h⟩

theorem outside_length (p1 p2 : List Nat) (n b e : Nat)
    (h1 : p1.Perm (List.range n)) (h2 : p2.Perm (List.range n)) (he : e ≤ n) :
    (outside p1 p2 b e).length + (e - b) = p1.length := by
  have hl1 := perm_range_length h1
  have hl2 := perm_range_length h2
  have hsplit := List.length_eq_length_filter_add (l := p2)
    (fun v => decide (v ∈ window p1 b e))
  rw [(filter_window_perm p1 p2 n b e h1 h2).length_eq,
    window_length p1 b e (by omega)] at hsplit
  unfold outside
  omega

theorem crossover_spec_perm (p1 p2 : List Nat) (n b e : Nat)
    (h1 : p1.Perm (List.range n)) (h2 : p2.Perm (List.range n)) :
    (crossover_spec p1 p2 b e).Perm (List.range n) := by
  unfold crossover_spec
  refine (List.perm_append_comm_assoc _ _ _).trans ?_
  rw [List.take_append_drop]
  refine ((filter_window_perm p1 p2 n b e h1 h2).symm.append_right _).trans ?_
  exact (List.filter_append_perm _ p2).trans h2

/-- For valid parents and a window inside the order, the loop of
`create_crossover_child` runs to completion and leaves `crossover_spec`. -/
theorem crossover_order_eq (p1 p2 : List Nat) (n b e : Nat)
    (h1 : p1.Perm (List.range n)) (h2 : p2.Perm (List.range n)) (hbe : b ≤ e) (he : e ≤ n) :
    crossover_order p1 p2 b e = .ok (crossover_spec p1 p2 b e) := by
  have hl1 := perm_range_length h1
  have hl2 := perm_range_length h2
  unfold crossover_order
  apply crossover_loop_spec p1 p2 b e hbe (by omega) (by omega)
    (outside_length p1 p2 n b e h1 h2 he) _ p1 0 0 (by omega) (by omega)
  · simp
  · simp

theorem create_crossover_child_eq (p1 p2 : Chromosome) (n b e : Nat)
    (h1 : p1.order_.Perm (List.range n)) (h2 : p2.order_.Perm (List.range n))
    (hbe : b ≤ e) (he : e ≤ n) :
    create_crossover_child p1 p2 b e
      = .ok { p1 with order_ := crossover_spec p1.order_ p2.order_ b e } := by
  unfold create_crossover_child
  rw [crossover_order_eq p1.order_ p2.order_ n b e h1 h2 hbe he]
  simp only
  have hp := crossover_spec_perm p1.order_ p2.order_ n b e h1 h2
  have hv : is_valid (crossover_spec p1.order_ p2.order_ b e) = true := by
    rw [is_valid_iff_perm, perm_range_length hp]
    exact hp
  rw [if_pos hv]

theorem draw_window_spec (n g1 g2 : Nat) (gs : List Nat) (hn : 1 ≤ n) :
    ∃ start finish gen, draw_window n (g1 :: g2 :: gs) = .ok (start, finish, gen)
      ∧ start ≤ finish ∧ finish < n := by
  unfold draw_window
  by_cases h : g1 % n = 0
  · exact ⟨0, 0, g2 :: gs, by simp [h], le_refl _, by omega⟩
  · refine ⟨g2 % (g1 % n), g1 % n, gs, by simp [h], ?_, Nat.mod_lt _ (by omega)⟩
    exact (Nat.mod_lt _ (by omega)).le

theorem recombine_eq (this other : Chromosome) (n : Nat) (hn : 1 ≤ n)
    (h1 : this.order_.Perm (List.range n)) (h2 : other.order_.Perm (List.range n))
    (start finish : Nat) (gen : List Nat)
    (hd : draw_window n this.generator_ = .ok (start, finish, gen))
    (hsf : start ≤ finish) (hfn : finish ≤ n) :
    recombine this other = .ok
      ({ this with generator_ := gen },
       { order_ := crossover_spec this.order_ other.order_ start finish, generator_ := gen },
       { other with order_ := crossover_spec other.order_ this.order_ start finish }) := by
  have hl1 := perm_range_length h1
  have hl2 := perm_range_length h2
  have hv1 : is_valid this.order_ = true := by rw [is_valid_iff_perm, hl1]; exact h1
  have hv2 : is_valid other.order_ = true := by rw [is_valid_iff_perm, hl2]; exact h2
  unfold recombine
  simp only [hv1, hv2, not_true_eq_false, if_false, hl1]
  rw [if_neg (by omega), hd]
  simp only
  rw [create_crossover_child_eq { this with generator_ := gen } other n start finish h1 h2
    hsf hfn]
  simp only
  rw [create_crossover_child_eq other { this with generator_ := gen } n start finish h2 h1
    hsf hfn]

theorem perm_of_is_valid {order : List Nat} {n : Nat} (hv : is_valid order = true)
    (hl : order.length = n) : order.Perm (List.range n) := by
  rw [← hl]
  exact (is_valid_iff_perm order).mp hv

theorem split_three (A W B : List Nat) (b e : Nat) (hA : A.length = b)
    (hW : W.length = e - b) (hbe : b ≤ e) :
    (A ++ (W ++ B)).take b = A ∧ ((A ++ (W ++ B)).drop b).take (e - b) = W
      ∧ (A ++ (W ++ B)).drop e = B := by
  refine ⟨List.take_left' hA, ?_, ?_⟩
  · rw [List.drop_left' hA, List.take_left' hW]
  · rw [← List.append_assoc]
    exact List.drop_left' (by rw [List.length_append]; omega)

theorem crossover_spec_split (p1 p2 : List Nat) (n b e : Nat)
    (h1 : p1.Perm (List.range n)) (h2 : p2.Perm (List.range n)) (hbe : b ≤ e) (he : e ≤ n) :
    (crossover_spec p1 p2 b e).take b = (outside p1 p2 b e).take b
      ∧ ((crossover_spec p1 p2 b e).drop b).take (e - b) = window p1 b e
      ∧ (crossover_spec p1 p2 b e).drop e = (outside p1 p2 b e).drop b := by
  have hl1 := perm_range_length h1
  have hF := outside_length p1 p2 n b e h1 h2 he
  apply split_three _ _ _ b e _ (window_length p1 b e (by omega)) hbe
  simp only [List.length_take]
  omega

theorem crossover_spec_not_mem (p1 p2 : List Nat) (n b e : Nat)
    (h1 : p1.Perm (List.range n)) (h2 : p2.Perm (List.range n)) (hbe : b ≤ e) (he : e ≤ n)
    (k v : Nat) (hk : (crossover_spec p1 p2 b e)[k]? = some v) (hout : ¬ (b ≤ k ∧ k < e)) :
    v ∉ window p1 b e := by
  have hl1 := perm_range_length h1
  have hF := outside_length p1 p2 n b e h1 h2 he
  rw [crossover_spec_outside p1 p2 b e hbe (by omega) hF k hout] at hk
  have hmem : v ∈ outside p1 p2 b e := List.getElem?_mem hk
  simp only [outside, List.mem_filter, Bool.not_eq_true', decide_eq_false_iff_not] at hmem
  exact hmem.2

/-- C2: for parents that are valid permutations of `[0, n)` with `n ≥ 1` and for every
pair of engine outputs, `recombine` returns, and both children are permutations of
`[0, n)`: they have length `n` and hold each index exactly once. -/
theorem recombine_children_valid (this other : Chromosome) (n g1 g2 : Nat) (gs : List Nat)
    (hn : 1 ≤ n)
    (hv1 : is_valid this.order_ = true) (hl1 : this.order_.length = n)
    (hv2 : is_valid other.order_ = true) (hl2 : other.order_.length = n)
    (hg : this.generator_ = g1 :: g2 :: gs) :
    ∃ this1 child1 child2, recombine this other = .ok (this1, child1, child2)
      ∧ child1.order_.Perm (List.range n) ∧ child2.order_.Perm (List.range n)
      ∧ is_valid child1.order_ = true ∧ is_valid child2.order_ = true := by
  have h1 := perm_of_is_valid hv1 hl1
  have h2 := perm_of_is_valid hv2 hl2
  obtain ⟨start, finish, gen, hd, hsf, hfn⟩ := draw_window_spec n g1 g2 gs hn
  rw [← hg] at hd
  have hc1 := crossover_spec_perm this.order_ other.order_ n start finish h1 h2
  have hc2 := crossover_spec_perm other.order_ this.order_ n start finish h2 h1
  refine ⟨_, _, _, recombine_eq this other n hn h1 h2 start finish gen hd hsf (by omega),
    hc1, hc2, ?_, ?_⟩
  · rw [is_valid_iff_perm, perm_range_length hc1]; exact hc1
  · rw [is_valid_iff_perm, perm_range_length hc2]; exact hc2

theorem recombine_children_valid_witness :
    ∃ this1 child1 child2,
      recombine ⟨[0, 1, 2, 3, 4], [3, 1, 9]⟩ ⟨[4, 3, 2, 1, 0], [5]⟩
        = .ok (this1, child1, child2)
      ∧ child1.order_.Perm (List.range 5) ∧ child2.order_.Perm (List.range 5)
      ∧ is_valid child1.order_ = true ∧ is_valid child2.order_ = true :=
  recombine_children_valid ⟨[0, 1, 2, 3, 4], [3, 1, 9]⟩ ⟨[4, 3, 2, 1, 0], [5]⟩ 5 3 1 [9]
    (by decide) (by decide) rfl (by decide) rfl rfl

/-- C3: for valid parents of the same length and the window `[start, finish)` drawn by
one call of `recombine`, the first child agrees with the receiver on the window, the
second child agrees with the other parent on the same window, and in each child no value
of that window occurs at a position outside it. -/
theorem recombine_window (this other : Chromosome) (n g1 g2 : Nat) (gs : List Nat)
    (hn : 1 ≤ n)
    (hv1 : is_valid this.order_ = true) (hl1 : this.order_.length = n)
    (hv2 : is_valid other.order_ = true) (hl2 : other.order_.length = n)
    (hg : this.generator_ = g1 :: g2 :: gs) :
    ∃ start finish gen this1 child1 child2,
      draw_window n this.generator_ = .ok (start, finish, gen)
      ∧ recombine this other = .ok (this1, child1, child2)
      ∧ (child1.order_.drop start).take (finish - start)
          = (this.order_.drop start).take (finish - start)
      ∧ (child2.order_.drop start).take (finish - start)
          = (other.order_.drop start).take (finish - start)
      ∧ (∀ k v, child1.order_[k]? = some v → ¬ (start ≤ k ∧ k < finish) →
          v ∉ (this.order_.drop start).take (finish - start))
      ∧ (∀ k v, child2.order_[k]? = some v → ¬ (start ≤ k ∧ k < finish) →
          v ∉ (other.order_.drop start).take (finish - start)) := by
  have h1 := perm_of_is_valid hv1 hl1
  have h2 := perm_of_is_valid hv2 hl2
  obtain ⟨start, finish, gen, hd, hsf, hfn⟩ := draw_window_spec n g1 g2 gs hn
  rw [← hg] at hd
  refine ⟨start, finish, gen, _, _, _, hd,
    recombine_eq this other n hn h1 h2 start finish gen hd hsf (by omega), ?_, ?_, ?_, ?_⟩
  · exact (crossover_spec_split _ _ n start finish h1 h2 hsf (by omega)).2.1
  · exact (crossover_spec_split _ _ n start finish h2 h1 hsf (by omega)).2.1
  · intro k v hk hout
    exact crossover_spec_not_mem _ _ n start finish h1 h2 hsf (by omega) k v hk hout
  · intro k v hk hout
    exact crossover_spec_not_mem _ _ n start finish h2 h1 hsf (by omega) k v hk hout

theorem recombine_window_witness :
    ∃ start finish gen this1 child1 child2,
      draw_window 5 (Chromosome.mk [0, 1, 2, 3, 4] [3, 1, 9]).generator_
        = .ok (start, finish, gen)
      ∧ recombine ⟨[0, 1, 2, 3, 4], [3, 1, 9]⟩ ⟨[4, 3, 2, 1, 0], [5]⟩
          = .ok (this1, child1, child2)
      ∧ (child1.order_.drop start).take (finish - start)
          = ([0, 1, 2, 3, 4].drop start).take (finish - start)
      ∧ (child2.order_.drop start).take (finish - start)
          = ([4, 3, 2, 1, 0].drop start).take (finish - start)
      ∧ (∀ k v, child1.order_[k]? = some v → ¬ (start ≤ k ∧ k < finish) →
          v ∉ ([0, 1, 2, 3, 4].drop start).take (finish - start))
      ∧ (∀ k v, child2.order_[k]? = some v → ¬ (start ≤ k ∧ k < finish) →
          v ∉ ([4, 3, 2, 1, 0].drop start).take (finish - start)) :=
  recombine_window ⟨[0, 1, 2, 3, 4], [3, 1, 9]⟩ ⟨[4, 3, 2, 1, 0], [5]⟩ 5 3 1 [9]
    (by decide) (by decide) rfl (by decide) rfl rfl

/-- C4: for valid parents of the same length `n` and a window `0 ≤ b ≤ e ≤ n`,
`create_crossover_child` returns, and the values of the child outside `[b, e)`, read left
to right, are the values of the secondary parent that do not occur in `p1[b, e)`, in the
order of the secondary parent. -/
theorem create_crossover_child_outside (p1 p2 : Chromosome) (n b e : Nat)
    (hv1 : is_valid p1.order_ = true) (hl1 : p1.order_.length = n)
    (hv2 : is_valid p2.order_ = true) (hl2 : p2.order_.length = n)
    (hbe : b ≤ e) (he : e ≤ n) :
    ∃ child, create_crossover_child p1 p2 b e = .ok child
      ∧ child.order_.take b ++ child.order_.drop e
          = p2.order_.filter (fun v => decide (v ∉ (p1.order_.drop b).take (e - b))) := by
  have h1 := perm_of_is_valid hv1 hl1
  have h2 := perm_of_is_valid hv2 hl2
  refine ⟨_, create_crossover_child_eq p1 p2 n b e h1 h2 hbe he, ?_⟩
  obtain ⟨ht, -, hd⟩ := crossover_spec_split p1.order_ p2.order_ n b e h1 h2 hbe he
  simp only [ht, hd, List.take_append_drop]
  simp only [outside, window, decide_not]

theorem create_crossover_child_outside_witness :
    ∃ child, create_crossover_child ⟨[0, 1, 2, 3, 4], [7]⟩ ⟨[4, 3, 2, 1, 0], [5]⟩ 1 3
        = .ok child
      ∧ child.order_.take 1 ++ child.order_.drop 3
          = [4, 3, 2, 1, 0].filter (fun v => decide (v ∉ ([0, 1, 2, 3, 4].drop 1).take (3 - 1))) :=
  create_crossover_child_outside ⟨[0, 1, 2, 3, 4], [7]⟩ ⟨[4, 3, 2, 1, 0], [5]⟩ 5 1 3
    (by decide) rfl (by decide) rfl (by decide) (by decide)

/-- C7: `is_valid` returns true exactly when the order holds each integer of
`[0, size)` exactly once, that is, when it has no duplicate and no value out of range,
that is, when its sorted copy is `[0, 1, ..., size - 1]`. -/
theorem is_valid_characterisation (order : List Nat) :
    (is_valid order = true ↔ ∀ k, k < order.length → order.count k = 1)
    ∧ (is_valid order = true ↔ order.Nodup ∧ ∀ v ∈ order, v < order.length)
    ∧ (is_valid order = true ↔ order.insertionSort (· ≤ ·) = List.range order.length) :=
  ⟨(is_valid_iff_perm order).trans (perm_range_iff_count order),
   (is_valid_iff_perm order).trans (perm_range_iff_nodup order),
   is_valid_iff_sorted order⟩

theorem cons_set_perm (t : List Nat) (a : Nat) :
    ∀ k, k < t.length → (t.getD k 0 :: t.set k a).Perm (a :: t) := by
  induction t with
  | nil => intro k hk; simp at hk
  | cons x t ih =>
    intro k hk
    cases k with
    | zero => exact List.Perm.swap _ _ _
    | succ k =>
      simp only [List.getD_cons_succ, List.set_cons_succ]
      have hk1 : k < t.length := by simpa using hk
      exact (List.Perm.swap _ _ _).trans (((ih k hk1).cons x).trans (List.Perm.swap _ _ _))

theorem swap_perm (order : List Nat) :
    ∀ i j, i < order.length → j < order.length → (swap order i j).Perm order := by
  unfold swap
  induction order with
  | nil => intro i j hi; simp at hi
  | cons x t ih =>
    intro i j hi hj
    cases i with
    | zero =>
      cases j with
      | zero => simp
      | succ j =>
        simp only [List.getD_cons_succ, List.set_cons_zero, List.set_cons_succ,
          List.getD_cons_zero]
        exact cons_set_perm t x j (by simpa using hj)
    | succ i =>
      cases j with
      | zero =>
        simp only [List.getD_cons_succ, List.set_cons_zero, List.set_cons_succ,
          List.getD_cons_zero]
        exact cons_set_perm t x i (by simpa using hi)
      | succ j =>
        simp only [List.getD_cons_succ, List.set_cons_succ]
        exact (ih i j (by simpa using hi) (by simpa using hj)).cons x

theorem resample_spec (n index1 : Nat) (hn : 0 < n) :
    ∀ gs index2 r gen, index2 < n → resample n index1 gs index2 = .ok (r, gen) →
      r ≠ index1 ∧ r < n := by
  intro gs
  induction gs with
  | nil =>
    intro index2 r gen h2 h
    unfold resample at h
    by_cases heq : index2 = index1
    · simp [heq] at h
    · simp only [heq, if_false, Except.ok.injEq, Prod.mk.injEq] at h
      exact ⟨h.1 ▸ heq, h.1 ▸ h2⟩
  | cons g gs ih =>
    intro index2 r gen h2 h
    unfold resample at h
    by_cases heq : index2 = index1
    · rw [if_pos heq] at h
      exact ih (g % n) r gen (Nat.mod_lt _ hn) h
    · simp only [heq, if_false, Except.ok.injEq, Prod.mk.injEq] at h
      exact ⟨h.1 ▸ heq, h.1 ▸ h2⟩

theorem mutate_swap_spec (c c1 : Chromosome) (h : mutate_swap c = .ok c1) :
    ∃ i j, i ≠ j ∧ i < c.order_.length ∧ j < c.order_.length
      ∧ c1.order_ = swap c.order_ i j := by
  unfold mutate_swap at h
  by_cases hz : c.order_.length = 0
  · simp [hz] at h
  · rw [if_neg hz] at h
    have hpos : 0 < c.order_.length := Nat.pos_of_ne_zero hz
    match hgen : c.generator_ with
    | [] => simp [hgen] at h
    | [_] => simp [hgen] at h
    | g1 :: g2 :: gs =>
      rw [hgen] at h
      simp only at h
      match hr : resample c.order_.length (g1 % c.order_.length) gs
          (g2 % c.order_.length) with
      | .error f => simp [hr] at h
      | .ok (index2, gen) =>
        rw [hr] at h
        simp only [Except.ok.injEq] at h
        obtain ⟨hne, hlt⟩ := resample_spec _ _ hpos gs _ index2 gen (Nat.mod_lt _ hpos) hr
        exact ⟨g1 % c.order_.length, index2, fun e => hne e.symm, Nat.mod_lt _ hpos, hlt,
          by rw [← h]⟩

theorem swap_getElem? (order : List Nat) (i j : Nat) (hi : i < order.length)
    (hj : j < order.length) (k : Nat) :
    (swap order i j)[k]? = if k = j then order[i]? else if k = i then order[j]? else order[k]? := by
  unfold swap
  rw [List.getD_eq_getElem _ _ hi, List.getD_eq_getElem _ _ hj]
  simp only [List.getElem?_set, List.length_set]
  by_cases hkj : k = j
  · subst hkj
    simp [hj, List.getElem?_eq_getElem hi]
  · have hjk : ¬ j = k := fun e => hkj e.symm
    rw [if_neg hjk, if_neg hkj]
    by_cases hki : k = i
    · subst hki
      simp [hi, List.getElem?_eq_getElem hj]
    · have hik : ¬ i = k := fun e => hki e.symm
      rw [if_neg hik, if_neg hki]

theorem mutate_ok (c c1 : Chromosome) (h : mutate c = .ok c1) :
    mutate_swap c = .ok c1 ∧ is_valid c1.order_ = true := by
  unfold mutate at h
  match hs : mutate_swap c with
  | .error f => simp [hs] at h
  | .ok c2 =>
    rw [hs] at h
    simp only at h
    by_cases hv : is_valid c2.order_ = true
    · rw [if_pos hv] at h
      simp only [Except.ok.injEq] at h
      subst h
      exact ⟨rfl, hv⟩
    · rw [if_neg hv] at h
      simp at h

/-- C5: whenever `mutate` returns, or gets as far as its closing assertion, with the
chromosome `c1` (on a chromosome of any length and any engine outputs), the order of `c1`
is a rearrangement of the order before the call: the multiset of values is unchanged. In
particular, if the order was a valid permutation before, the closing assertion holds,
`mutate` returns `c1`, and the order of `c1` is a valid permutation of the same range. -/
theorem mutate_preserves_multiset (c c1 : Chromosome) (n : Nat)
    (hlen : c.order_.length = n) (hret : mutate c = .ok c1 ∨ mutate_swap c = .ok c1) :
    c1.order_.Perm c.order_
      ∧ (is_valid c.order_ = true →
          mutate c = .ok c1 ∧ is_valid c1.order_ = true
            ∧ c1.order_.Perm (List.range n)) := by
  have h : mutate_swap c = .ok c1 := hret.elim (fun hm => (mutate_ok c c1 hm).1) id
  obtain ⟨i, j, -, hi, hj, heq⟩ := mutate_swap_spec c c1 h
  have hp : c1.order_.Perm c.order_ := by
    rw [heq]
    exact swap_perm c.order_ i j hi hj
  refine ⟨hp, fun hv => ?_⟩
  have hr : c1.order_.Perm (List.range n) := hp.trans (perm_of_is_valid hv hlen)
  have hv1 : is_valid c1.order_ = true := by
    rw [is_valid_iff_perm, perm_range_length hr]; exact hr
  refine ⟨?_, hv1, hr⟩
  unfold mutate
  rw [h]
  simp only [hv1, if_true]

theorem mutate_preserves_multiset_witness :
    (Chromosome.mk [0, 2, 1] [9]).order_.Perm (Chromosome.mk [0, 1, 2] [4, 4, 7, 8, 9]).order_
      ∧ (is_valid (Chromosome.mk [0, 1, 2] [4, 4, 7, 8, 9]).order_ = true →
          mutate ⟨[0, 1, 2], [4, 4, 7, 8, 9]⟩ = .ok ⟨[0, 2, 1], [9]⟩
            ∧ is_valid (Chromosome.mk [0, 2, 1] [9]).order_ = true
            ∧ (Chromosome.mk [0, 2, 1] [9]).order_.Perm (List.range 3)) :=
  mutate_preserves_multiset ⟨[0, 1, 2], [4, 4, 7, 8, 9]⟩ ⟨[0, 2, 1], [9]⟩ 3 rfl
    (Or.inl (by decide))

/-- C6: when `mutate` returns on a valid permutation, there are two distinct positions
`i` and `j` whose values have been exchanged, and the order differs from the order before
the call at exactly these two positions; in particular the call is not a no-op. -/
theorem mutate_exchanges_two (c c1 : Chromosome) (n : Nat) (hlen : c.order_.length = n)
    (hv : is_valid c.order_ = true) (h : mutate c = .ok c1) :
    ∃ i j, i ≠ j ∧ i < n ∧ j < n
      ∧ c1.order_[i]? = c.order_[j]? ∧ c1.order_[j]? = c.order_[i]?
      ∧ (∀ k, c1.order_[k]? ≠ c.order_[k]? ↔ (k = i ∨ k = j))
      ∧ c1.order_ ≠ c.order_ := by
  obtain ⟨i, j, hij, hi, hj, heq⟩ := mutate_swap_spec c c1 (mutate_ok c c1 h).1
  have hnd : c.order_.Nodup :=
    (perm_of_is_valid hv hlen).nodup_iff.mpr (List.nodup_range n)
  have hne : c.order_[i]? ≠ c.order_[j]? := by
    rw [List.getElem?_eq_getElem hi, List.getElem?_eq_getElem hj]
    intro e
    exact hij ((hnd.getElem_inj_iff).mp (Option.some.inj e))
  have hget := swap_getElem? c.order_ i j hi hj
  have hdiff : ∀ k, c1.order_[k]? ≠ c.order_[k]? ↔ (k = i ∨ k = j) := by
    intro k
    rw [heq, hget k]
    by_cases hkj : k = j
    · subst hkj
      simp only [if_true, or_true, iff_true]
      exact hne
    · by_cases hki : k = i
      · subst hki
        simp only [hkj, if_false, if_true, true_or, iff_true]
        exact fun e => hne e.symm
      · simp [hkj, hki]
  refine ⟨i, j, hij, hlen ▸ hi, hlen ▸ hj, ?_, ?_, hdiff, ?_⟩
  · rw [heq, hget i]
    simp [hij]
  · rw [heq, hget j]
    simp
  · intro e
    have := (hdiff i).mpr (Or.inl rfl)
    exact this (by rw [e])

theorem mutate_exchanges_two_witness :
    ∃ i j, i ≠ j ∧ i < 3 ∧ j < 3
      ∧ (Chromosome.mk [0, 2, 1] [9]).order_[i]?
          = (Chromosome.mk [0, 1, 2] [4, 4, 7, 8, 9]).order_[j]?
      ∧ (Chromosome.mk [0, 2, 1] [9]).order_[j]?
          = (Chromosome.mk [0, 1, 2] [4, 4, 7, 8, 9]).order_[i]?
      ∧ (∀ k, (Chromosome.mk [0, 2, 1] [9]).order_[k]?
            ≠ (Chromosome.mk [0, 1, 2] [4, 4, 7, 8, 9]).order_[k]? ↔ (k = i ∨ k = j))
      ∧ (Chromosome.mk [0, 2, 1] [9]).order_
          ≠ (Chromosome.mk [0, 1, 2] [4, 4, 7, 8, 9]).order_ :=
  mutate_exchanges_two ⟨[0, 1, 2], [4, 4, 7, 8, 9]⟩ ⟨[0, 2, 1], [9]⟩ 3 rfl (by decide)
    (by decide)

theorem foldl_fitness (cities : Cities) (pop : List Chromosome) (a : ℚ) :
    pop.foldl (fun acc v => acc + get_fitness cities v) a
      = a + (pop.map (get_fitness cities)).sum := by
  induction pop generalizing a with
  | nil => simp
  | cons v t ih =>
    simp only [List.foldl_cons, List.map_cons, List.sum_cons, ih]
    ring

theorem total_fitness_eq (cities : Cities) (pop : List Chromosome) :
    total_fitness cities pop = cumulative_fitness cities pop pop.length := by
  unfold total_fitness cumulative_fitness
  rw [foldl_fitness, List.take_length, zero_add]

theorem cumulative_fitness_zero (cities : Cities) (pop : List Chromosome) :
    cumulative_fitness cities pop 0 = 0 := by
  simp [cumulative_fitness]

theorem cumulative_fitness_cons (cities : Cities) (v : Chromosome) (t : List Chromosome)
    (i : Nat) :
    cumulative_fitness cities (v :: t) (i + 1) = get_fitness cities v + cumulative_fitness cities t i := by
  simp [cumulative_fitness]

theorem cumulative_fitness_succ (cities : Cities) (pop : List Chromosome) (i : Nat)
    (hi : i < pop.length) :
    cumulative_fitness cities pop (i + 1)
      = cumulative_fitness cities pop i + get_fitness cities pop[i] := by
  induction pop generalizing i with
  | nil => simp at hi
  | cons v t ih =>
    cases i with
    | zero => simp [cumulative_fitness]
    | succ i =>
      have hi1 : i < t.length := by simpa using hi
      rw [cumulative_fitness_cons, cumulative_fitness_cons, ih i hi1]
      simp only [List.getElem_cons_succ]
      ring

theorem cumulative_fitness_nonneg (cities : Cities) (pop : List Chromosome)
    (hpos : ∀ c ∈ pop, 0 < get_fitness cities c) (i : Nat) :
    0 ≤ cumulative_fitness cities pop i := by
  unfold cumulative_fitness
  apply List.sum_nonneg
  intro x hx
  obtain ⟨c, hc, rfl⟩ := List.mem_map.mp hx
  exact (hpos c (List.mem_of_mem_take hc)).le

theorem cumulative_fitness_le_total (cities : Cities) (pop : List Chromosome)
    (hpos : ∀ c ∈ pop, 0 < get_fitness cities c) (i : Nat) :
    cumulative_fitness cities pop i ≤ cumulative_fitness cities pop pop.length := by
  induction pop generalizing i with
  | nil => simp [cumulative_fitness]
  | cons v t ih =>
    have hpos1 : ∀ c ∈ t, 0 < get_fitness cities c :=
      fun c hc => hpos c (List.mem_cons_of_mem _ hc)
    cases i with
    | zero =>
      rw [cumulative_fitness_zero]
      exact cumulative_fitness_nonneg cities _ hpos _
    | succ i =>
      rw [List.length_cons, cumulative_fitness_cons, cumulative_fitness_cons]
      have := ih hpos1 i
      linarith

theorem select_scan_ge (cities : Cities) (total : ℚ) (rest : List Chromosome) :
    ∀ start k0 k, select_scan cities total rest start k0 = some k → k0 ≤ k := by
  induction rest with
  | nil => intro start k0 k h; simp [select_scan] at h
  | cons v t ih =>
    intro start k0 k h
    unfold select_scan at h
    by_cases hc : start + get_fitness cities v > total
    · rw [if_pos hc] at h
      simp only [Option.some.injEq] at h
      omega
    · rw [if_neg hc] at h
      have := ih _ _ _ h
      omega

theorem select_scan_some_iff (cities : Cities) (total : ℚ) (rest : List Chromosome)
    (hpos : ∀ c ∈ rest, 0 < get_fitness cities c) :
    ∀ start k0 i, start ≤ total →
      (select_scan cities total rest start k0 = some (k0 + i) ↔
        i < rest.length ∧ start + cumulative_fitness cities rest i ≤ total
          ∧ total < start + cumulative_fitness cities rest (i + 1)) := by
  induction rest with
  | nil =>
    intro start k0 i _
    simp [select_scan]
  | cons v t ih =>
    have hpos1 : ∀ c ∈ t, 0 < get_fitness cities c :=
      fun c hc => hpos c (List.mem_cons_of_mem _ hc)
    intro start k0 i hst
    unfold select_scan
    by_cases hc : start + get_fitness cities v > total
    · rw [if_pos hc]
      cases i with
      | zero =>
        simp only [Nat.add_zero, List.length_cons, Nat.zero_lt_succ, true_and,
          cumulative_fitness_zero, add_zero, cumulative_fitness_cons, true_iff]
        exact ⟨hst, by linarith⟩
      | succ i =>
        constructor
        · intro h
          simp only [Option.some.injEq] at h
          omega
        · rintro ⟨-, h2, -⟩
          rw [cumulative_fitness_cons] at h2
          have := cumulative_fitness_nonneg cities t hpos1 i
          linarith
    · rw [if_neg hc]
      have hst1 : start + get_fitness cities v ≤ total := not_lt.mp hc
      cases i with
      | zero =>
        constructor
        · intro h
          have := select_scan_ge cities total t _ _ _ h
          omega
        · rintro ⟨-, -, h3⟩
          rw [cumulative_fitness_cons, cumulative_fitness_zero] at h3
          linarith
      | succ i =>
        have hidx : k0 + (i + 1) = (k0 + 1) + i := by omega
        rw [hidx, ih hpos1 (start + get_fitness cities v) (k0 + 1) i hst1,
          cumulative_fitness_cons, cumulative_fitness_cons, List.length_cons]
        constructor
        · rintro ⟨h1, h2, h3⟩
          exact ⟨by omega, by linarith, by linarith⟩
        · rintro ⟨h1, h2, h3⟩
          exact ⟨by omega, by linarith, by linarith⟩

theorem select_scan_none_iff (cities : Cities) (total : ℚ) (rest : List Chromosome)
    (hpos : ∀ c ∈ rest, 0 < get_fitness cities c) :
    ∀ start k0, start ≤ total →
      (select_scan cities total rest start k0 = none ↔
        start + cumulative_fitness cities rest rest.length ≤ total) := by
  induction rest with
  | nil =>
    intro start k0 hst
    simpa [select_scan, cumulative_fitness] using hst
  | cons v t ih =>
    have hpos1 : ∀ c ∈ t, 0 < get_fitness cities c :=
      fun c hc => hpos c (List.mem_cons_of_mem _ hc)
    intro start k0 _
    unfold select_scan
    rw [List.length_cons, cumulative_fitness_cons]
    by_cases hc : start + get_fitness cities v > total
    · rw [if_pos hc]
      have := cumulative_fitness_nonneg cities t hpos1 t.length
      constructor
      · intro h; cases h
      · intro h; linarith
    · rw [if_neg hc, ih hpos1 _ _ (not_lt.mp hc)]
      constructor <;> intro h <;> linarith

/-- C1 (the code departs from the claim): on a population of two tours of the rectangle,
of lengths 14 and 18, `get_best` returns the individual at position 1, the longer tour,
whose fitness is strictly lower than that of the individual at position 0. -/
theorem get_best_returns_lowest_fitness :
    get_best rectangle ⟨[⟨[0, 1, 2, 3], []⟩, ⟨[0, 2, 1, 3], []⟩], 0, [], none⟩ = .ok 1
      ∧ get_fitness rectangle ⟨[0, 2, 1, 3], []⟩ < get_fitness rectangle ⟨[0, 1, 2, 3], []⟩ := by
  decide!

/-- C8: for a population whose fitness values are all positive, with total `T`, and for
every individual `k`, the draws `r` in `[0, T)` on which `select_parent` (its scan and
fallback, `select_from`) returns `k` form an interval of length `fitness k`: they contain
an open interval of that length and are contained in its closure. -/
theorem select_parent_interval (cities : Cities) (pop : List Chromosome) (k : Nat)
    (hk : k < pop.length) (hpos : ∀ c ∈ pop, 0 < get_fitness cities c) :
    ∃ lo hi : ℚ, hi - lo = get_fitness cities pop[k]
      ∧ Set.Ioo lo hi ⊆
          {r | 0 ≤ r ∧ r < total_fitness cities pop ∧ select_from cities pop r = .ok k}
      ∧ {r | 0 ≤ r ∧ r < total_fitness cities pop ∧ select_from cities pop r = .ok k}
          ⊆ Set.Icc lo hi := by
  have hT := total_fitness_eq cities pop
  have hsucc := cumulative_fitness_succ cities pop k hk
  have hle := cumulative_fitness_le_total cities pop hpos (k + 1)
  have hnn := cumulative_fitness_nonneg cities pop hpos k
  have hle2 := cumulative_fitness_le_total cities pop hpos k
  have hiff := fun r (hr : r ≤ total_fitness cities pop) =>
    select_scan_some_iff cities (total_fitness cities pop) pop hpos r 0 k hr
  simp only [Nat.zero_add] at hiff
  refine ⟨total_fitness cities pop - cumulative_fitness cities pop (k + 1),
    total_fitness cities pop - cumulative_fitness cities pop k, by rw [hsucc]; ring, ?_, ?_⟩
  · intro r hr
    obtain ⟨hr1, hr2⟩ := hr
    have hr0 : 0 ≤ r := by linarith
    have hrT : r < total_fitness cities pop := by linarith
    refine ⟨hr0, hrT, ?_⟩
    have hs := (hiff r hrT.le).mpr ⟨hk, by linarith, by linarith⟩
    unfold select_from
    rw [hs]
  · rintro r ⟨hr0, hrT, hsel⟩
    unfold select_from at hsel
    match hs : select_scan cities (total_fitness cities pop) pop r 0 with
    | some k1 =>
      rw [hs] at hsel
      simp only [Except.ok.injEq] at hsel
      subst hsel
      obtain ⟨-, h2, h3⟩ := (hiff r hrT.le).mp hs
      exact ⟨by linarith, by linarith⟩
    | none =>
      rw [hs] at hsel
      have hnone := (select_scan_none_iff cities _ pop hpos r 0 hrT.le).mp hs
      have hlen : ¬ pop.length = 0 := by omega
      simp only [hlen, if_false, Except.ok.injEq] at hsel
      have hk1 : k + 1 = pop.length := by omega
      rw [hk1]
      exact ⟨by linarith, by linarith⟩

theorem select_parent_interval_witness :
    (∀ c ∈ [Chromosome.mk [0, 1, 2, 3] [], ⟨[0, 2, 1, 3], []⟩, ⟨[0, 1, 3, 2], []⟩],
        0 < get_fitness rectangle c)
    ∧ ∃ lo hi : ℚ,
        hi - lo = get_fitness rectangle
          [Chromosome.mk [0, 1, 2, 3] [], ⟨[0, 2, 1, 3], []⟩, ⟨[0, 1, 3, 2], []⟩][1]
        ∧ Set.Ioo lo hi ⊆
            {r | 0 ≤ r
              ∧ r < total_fitness rectangle
                  [⟨[0, 1, 2, 3], []⟩, ⟨[0, 2, 1, 3], []⟩, ⟨[0, 1, 3, 2], []⟩]
              ∧ select_from rectangle
                  [⟨[0, 1, 2, 3], []⟩, ⟨[0, 2, 1, 3], []⟩, ⟨[0, 1, 3, 2], []⟩] r = .ok 1}
        ∧ {r | 0 ≤ r
              ∧ r < total_fitness rectangle
                  [⟨[0, 1, 2, 3], []⟩, ⟨[0, 2, 1, 3], []⟩, ⟨[0, 1, 3, 2], []⟩]
              ∧ select_from rectangle
                  [⟨[0, 1, 2, 3], []⟩, ⟨[0, 2, 1, 3], []⟩, ⟨[0, 1, 3, 2], []⟩] r = .ok 1}
            ⊆ Set.Icc lo hi :=
  ⟨by decide!,
   select_parent_interval rectangle
     [⟨[0, 1, 2, 3], []⟩, ⟨[0, 2, 1, 3], []⟩, ⟨[0, 1, 3, 2], []⟩] 1 (by decide) (by decide!)⟩

theorem generation_loop_length (cities : Cities) :
    ∀ count d new_pop d1 pop1, generation_loop cities count d new_pop = .ok (d1, pop1) →
      pop1.length = new_pop.length + 2 * count := by
  intro count
  induction count with
  | zero =>
    intro d new_pop d1 pop1 h
    simp only [generation_loop, Except.ok.injEq, Prod.mk.injEq] at h
    rw [← h.2]
    rfl
  | succ count ih =>
    intro d new_pop d1 pop1 h
    unfold generation_loop at h
    match hb : breed cities d with
    | .error f => simp [hb] at h
    | .ok (d2, kid1, kid2) =>
      rw [hb] at h
      simp only at h
      rw [ih _ _ _ _ h]
      simp only [List.length_append, List.length_cons, List.length_nil]
      omega

/-- C9: when `compute_next_generation` returns on a population of size `p`, the new
population has size `2 * (p / 2)`: `p` when `p` is even and `p - 1` when `p` is odd. -/
theorem compute_next_generation_size (cities : Cities) (d d1 : Deme)
    (h : compute_next_generation cities d = .ok d1) :
    d1.pop_.length = 2 * (d.pop_.length / 2)
      ∧ (d.pop_.length % 2 = 0 → d1.pop_.length = d.pop_.length)
      ∧ (d.pop_.length % 2 = 1 → d1.pop_.length = d.pop_.length - 1) := by
  unfold compute_next_generation at h
  match hg : generation_loop cities (d.pop_.length / 2) d [] with
  | .error f => simp [hg] at h
  | .ok (d2, new_pop) =>
    rw [hg] at h
    simp only [Except.ok.injEq] at h
    have hl := generation_loop_length cities _ _ _ _ _ hg
    simp only [List.length_nil, Nat.zero_add] at hl
    rw [← h]
    simp only
    refine ⟨hl, fun _ => ?_, fun _ => ?_⟩ <;> omega

theorem compute_next_generation_size_witness :
    compute_next_generation rectangle example_deme = .ok example_next
    ∧ example_next.pop_.length = 2 * (example_deme.pop_.length / 2)
    ∧ (example_deme.pop_.length % 2 = 0 → example_next.pop_.length = example_deme.pop_.length)
    ∧ (example_deme.pop_.length % 2 = 1 →
        example_next.pop_.length = example_deme.pop_.length - 1) :=
  ⟨by decide!, compute_next_generation_size rectangle example_deme example_next (by decide!)⟩

theorem resample_error (n index1 : Nat) :
    ∀ gs index2 f, resample n index1 gs index2 = .error f → f = .starved := by
  intro gs
  induction gs with
  | nil =>
    intro index2 f h
    unfold resample at h
    by_cases heq : index2 = index1
    · simp only [heq, if_true, Except.error.injEq] at h
      exact h.symm
    · simp [heq] at h
  | cons g gs ih =>
    intro index2 f h
    unfold resample at h
    by_cases heq : index2 = index1
    · rw [if_pos heq] at h
      exact ih _ _ h
    · simp [heq] at h

theorem mutate_swap_error (c : Chromosome) (f : Fault) (hlen : c.order_.length ≠ 0)
    (h : mutate_swap c = .error f) : f = .starved := by
  unfold mutate_swap at h
  rw [if_neg hlen] at h
  match hgen : c.generator_ with
  | [] =>
    rw [hgen] at h
    simp only [Except.error.injEq] at h
    exact h.symm
  | [_] =>
    rw [hgen] at h
    simp only [Except.error.injEq] at h
    exact h.symm
  | g1 :: g2 :: gs =>
    rw [hgen] at h
    simp only at h
    match hr : resample c.order_.length (g1 % c.order_.length) gs
        (g2 % c.order_.length) with
    | .error f1 =>
      rw [hr] at h
      simp only [Except.error.injEq] at h
      rw [← h]
      exact resample_error _ _ _ _ _ hr
    | .ok (index2, gen) =>
      rw [hr] at h
      simp at h

theorem mutate_safe (c : Chromosome) (n : Nat) (hn : 1 ≤ n)
    (hp : c.order_.Perm (List.range n)) :
    SafeResult (mutate c) (fun c1 => c1.order_.Perm (List.range n)) := by
  have hlen := perm_range_length hp
  match hs : mutate_swap c with
  | .error f =>
    left
    have := mutate_swap_error c f (by omega) hs
    unfold mutate
    rw [hs, this]
  | .ok c1 =>
    right
    obtain ⟨i, j, -, hi, hj, heq⟩ := mutate_swap_spec c c1 hs
    have hr : c1.order_.Perm (List.range n) := by
      rw [heq]
      exact (swap_perm c.order_ i j hi hj).trans hp
    have hv1 : is_valid c1.order_ = true := by
      rw [is_valid_iff_perm, perm_range_length hr]; exact hr
    refine ⟨c1, ?_, hr⟩
    unfold mutate
    rw [hs]
    simp only [hv1, if_true]

theorem draw_window_safe (n : Nat) (hn : 1 ≤ n) (gen : List Nat) :
    SafeResult (draw_window n gen) (fun x => x.1 ≤ x.2.1 ∧ x.2.1 < n) := by
  unfold draw_window
  match gen with
  | [] => exact Or.inl rfl
  | g1 :: gs =>
    simp only
    by_cases h : g1 % n = 0
    · rw [if_pos h]
      exact Or.inr ⟨_, rfl, le_refl _, by show 0 < n; omega⟩
    · rw [if_neg h]
      match gs with
      | [] => exact Or.inl rfl
      | g2 :: gs2 =>
        exact Or.inr ⟨_, rfl, (Nat.mod_lt _ (by omega)).le, Nat.mod_lt _ (by omega)⟩

theorem recombine_safe (this other : Chromosome) (n : Nat) (hn : 1 ≤ n)
    (h1 : this.order_.Perm (List.range n)) (h2 : other.order_.Perm (List.range n)) :
    SafeResult (recombine this other)
      (fun x => x.1.order_ = this.order_ ∧ x.2.1.order_.Perm (List.range n)
        ∧ x.2.2.order_.Perm (List.range n)) := by
  have hl1 := perm_range_length h1
  have hl2 := perm_range_length h2
  rcases draw_window_safe n hn this.generator_ with hd | ⟨⟨start, finish, gen⟩, hd, hsf, hfn⟩
  · left
    have hv1 : is_valid this.order_ = true := by rw [is_valid_iff_perm, hl1]; exact h1
    have hv2 : is_valid other.order_ = true := by rw [is_valid_iff_perm, hl2]; exact h2
    unfold recombine
    simp only [hv1, hv2, not_true_eq_false, if_false, hl1]
    rw [if_neg (by omega), hd]
  · right
    simp only at hsf hfn
    refine ⟨_, recombine_eq this other n hn h1 h2 start finish gen hd hsf (by omega), rfl,
      ?_, ?_⟩
    · exact crossover_spec_perm this.order_ other.order_ n start finish h1 h2
    · exact crossover_spec_perm other.order_ this.order_ n start finish h2 h1

theorem select_scan_lt (cities : Cities) (total : ℚ) (rest : List Chromosome) :
    ∀ start k0 k, select_scan cities total rest start k0 = some k → k < k0 + rest.length := by
  induction rest with
  | nil => intro start k0 k h; simp [select_scan] at h
  | cons v t ih =>
    intro start k0 k h
    unfold select_scan at h
    by_cases hc : start + get_fitness cities v > total
    · rw [if_pos hc] at h
      simp only [Option.some.injEq] at h
      simp only [List.length_cons]
      omega
    · rw [if_neg hc] at h
      have := ih _ _ _ h
      simp only [List.length_cons]
      omega

theorem select_from_safe (cities : Cities) (pop : List Chromosome) (r : ℚ)
    (hne : pop ≠ []) : ∃ k, select_from cities pop r = .ok k ∧ k < pop.length := by
  have hlen : 0 < pop.length := List.length_pos.mpr hne
  unfold select_from
  match hs : select_scan cities (total_fitness cities pop) pop r 0 with
  | some k =>
    have := select_scan_lt cities _ pop _ _ _ hs
    exact ⟨k, rfl, by omega⟩
  | none =>
    refine ⟨pop.length - 1, ?_, by omega⟩
    simp only
    rw [if_neg (by omega)]

theorem select_parent_safe (cities : Cities) (d : Deme) (hne : d.pop_ ≠ []) :
    SafeResult (select_parent cities d)
      (fun x => x.1 < d.pop_.length ∧ x.2.pop_ = d.pop_) := by
  unfold select_parent
  match hg : d.generator_ with
  | [] => exact Or.inl rfl
  | u :: us =>
    simp only
    obtain ⟨k, hk, hlt⟩ := select_from_safe cities d.pop_
      (d.distri_hi.getD (total_fitness cities d.pop_) * u) hne
    rw [hk]
    exact Or.inr ⟨_, rfl, hlt, rfl⟩

theorem reselect_safe (cities : Cities) (parent1 : Nat) :
    ∀ fuel parent2 d, d.pop_ ≠ [] → parent2 < d.pop_.length →
      SafeResult (reselect cities parent1 fuel parent2 d)
        (fun x => x.1 < d.pop_.length ∧ x.2.pop_ = d.pop_) := by
  intro fuel
  induction fuel with
  | zero =>
    intro parent2 d _ h2
    unfold reselect
    by_cases heq : parent1 = parent2
    · rw [if_pos heq]; exact Or.inl rfl
    · rw [if_neg heq]; exact Or.inr ⟨_, rfl, h2, rfl⟩
  | succ fuel ih =>
    intro parent2 d hne h2
    unfold reselect
    by_cases heq : parent1 = parent2
    · rw [if_pos heq]
      rcases select_parent_safe cities d hne with hs | ⟨⟨p, d1⟩, hs, hp, hd1⟩
      · rw [hs]; exact Or.inl rfl
      · rw [hs]
        simp only at hp hd1 ⊢
        have := ih p d1 (by rw [hd1]; exact hne) (by rw [hd1]; exact hp)
        rw [hd1] at this
        exact this
    · rw [if_neg heq]; exact Or.inr ⟨_, rfl, h2, rfl⟩

theorem maybe_mutate_safe (parent n : Nat) (d : Deme) (hn : 1 ≤ n)
    (hp : parent < d.pop_.length) (hall : ∀ c ∈ d.pop_, c.order_.Perm (List.range n)) :
    SafeResult (maybe_mutate parent d)
      (fun d1 => d1.pop_.length = d.pop_.length
        ∧ ∀ c ∈ d1.pop_, c.order_.Perm (List.range n)) := by
  unfold maybe_mutate
  match hg : d.generator_ with
  | [] => exact Or.inl rfl
  | u :: us =>
    simp only
    by_cases hm : u < d.mut_rate_
    · rw [if_pos hm, List.getElem?_eq_getElem hp]
      simp only
      rcases mutate_safe d.pop_[parent] n hn (hall _ (List.getElem_mem _)) with
        hs | ⟨c1, hs, hc1⟩
      · rw [hs]; exact Or.inl rfl
      · rw [hs]
        refine Or.inr ⟨_, rfl, by simp, ?_⟩
        intro c hc
        rcases List.mem_or_eq_of_mem_set hc with h | h
        · exact hall c h
        · rw [h]; exact hc1
    · rw [if_neg hm]
      exact Or.inr ⟨_, rfl, rfl, hall⟩

theorem breed_safe (cities : Cities) (d : Deme) (n : Nat) (hn : 1 ≤ n)
    (hne : d.pop_ ≠ []) (hall : ∀ c ∈ d.pop_, c.order_.Perm (List.range n)) :
    SafeResult (breed cities d)
      (fun x => x.1.pop_ ≠ [] ∧ (∀ c ∈ x.1.pop_, c.order_.Perm (List.range n))
        ∧ x.2.1.order_.Perm (List.range n) ∧ x.2.2.order_.Perm (List.range n)) := by
  unfold breed
  rcases select_parent_safe cities d hne with hs | ⟨⟨parent1, d1⟩, hs, hp1, hd1⟩
  · rw [hs]; exact Or.inl rfl
  rw [hs]
  simp only at hp1 hd1 ⊢
  rcases select_parent_safe cities d1 (by rw [hd1]; exact hne) with
    hs2 | ⟨⟨p, d2⟩, hs2, hp, hd2⟩
  · rw [hs2]; exact Or.inl rfl
  rw [hs2]
  simp only at hp hd2 ⊢
  have hd2' : d2.pop_ = d.pop_ := hd2.trans hd1
  rcases reselect_safe cities parent1 d2.generator_.length p d2 (by rw [hd2']; exact hne)
    (by rw [hd2]; exact hp) with hs3 | ⟨⟨parent2, d3⟩, hs3, hp2, hd3⟩
  · rw [hs3]; exact Or.inl rfl
  rw [hs3]
  simp only at hp2 hd3 ⊢
  have hd3' : d3.pop_ = d.pop_ := hd3.trans hd2'
  rcases maybe_mutate_safe parent1 n d3 hn (by rw [hd3']; exact hp1)
    (by rw [hd3']; exact hall) with hs4 | ⟨d4, hs4, hl4, hall4⟩
  · rw [hs4]; exact Or.inl rfl
  rw [hs4]
  simp only
  have hlen4 : d4.pop_.length = d.pop_.length := by rw [hl4, hd3']
  rcases maybe_mutate_safe parent2 n d4 hn (by rw [hlen4, ← hd2']; exact hp2) hall4 with
    hs5 | ⟨d5, hs5, hl5, hall5⟩
  · rw [hs5]; exact Or.inl rfl
  rw [hs5]
  simp only
  have hlen5 : d5.pop_.length = d.pop_.length := by rw [hl5, hlen4]
  have hq1 : parent1 < d5.pop_.length := by rw [hlen5]; exact hp1
  have hq2 : parent2 < d5.pop_.length := by rw [hlen5, ← hd2']; exact hp2
  rw [List.getElem?_eq_getElem hq1, List.getElem?_eq_getElem hq2]
  simp only
  rcases recombine_safe d5.pop_[parent1] d5.pop_[parent2] n hn
    (hall5 _ (List.getElem_mem _)) (hall5 _ (List.getElem_mem _)) with
    hs6 | ⟨⟨c1, kid1, kid2⟩, hs6, hc1, hk1, hk2⟩
  · rw [hs6]; exact Or.inl rfl
  rw [hs6]
  simp only at hc1 hk1 hk2 ⊢
  refine Or.inr ⟨_, rfl, ?_, ?_, hk1, hk2⟩
  · simp only
    intro hnil
    have hl := congrArg List.length hnil
    simp only [List.length_set, List.length_nil] at hl
    omega
  · intro c hc
    rcases List.mem_or_eq_of_mem_set hc with h | h
    · exact hall5 c h
    · rw [h, hc1]; exact hall5 _ (List.getElem_mem _)

theorem generation_loop_safe (cities : Cities) (n : Nat) (hn : 1 ≤ n) :
    ∀ count d new_pop, (count = 0 ∨ d.pop_ ≠ []) →
      (∀ c ∈ d.pop_, c.order_.Perm (List.range n)) →
      (∀ c ∈ new_pop, c.order_.Perm (List.range n)) →
      SafeResult (generation_loop cities count d new_pop)
        (fun x => ∀ c ∈ x.2, c.order_.Perm (List.range n)) := by
  intro count
  induction count with
  | zero =>
    intro d new_pop _ _ hnew
    exact Or.inr ⟨_, rfl, hnew⟩
  | succ count ih =>
    intro d new_pop hne hall hnew
    have hne1 : d.pop_ ≠ [] := by
      rcases hne with h | h
      · omega
      · exact h
    unfold generation_loop
    rcases breed_safe cities d n hn hne1 hall with hs | ⟨⟨d1, kid1, kid2⟩, hs, h1, h2, h3, h4⟩
    · rw [hs]; exact Or.inl rfl
    rw [hs]
    simp only at h1 h2 h3 h4 ⊢
    apply ih d1 _ (Or.inr h1) h2
    intro c hc
    simp only [List.mem_append, List.mem_cons, List.mem_singleton, List.not_mem_nil,
      or_false] at hc
    rcases hc with h | h | h
    · exact hnew c h
    · rw [h]; exact h3
    · rw [h]; exact h4

/-- C10: if every individual of the population is a valid permutation of `[0, n)`, then
`compute_next_generation` never runs into undefined behaviour or a failed assertion:
whatever the random draws, it either returns or is still waiting for draws, and when it
returns every individual of the new population is a valid permutation of `[0, n)` of the
same length `n`. -/
theorem compute_next_generation_valid (cities : Cities) (d : Deme) (n : Nat) (hn : 1 ≤ n)
    (hall : ∀ c ∈ d.pop_, is_valid c.order_ = true ∧ c.order_.length = n) :
    SafeResult (compute_next_generation cities d)
      (fun d1 => ∀ c ∈ d1.pop_, is_valid c.order_ = true ∧ c.order_.length = n) := by
  have hperm : ∀ c ∈ d.pop_, c.order_.Perm (List.range n) :=
    fun c hc => perm_of_is_valid (hall c hc).1 (hall c hc).2
  have hcount : d.pop_.length / 2 = 0 ∨ d.pop_ ≠ [] := by
    by_cases h : d.pop_ = []
    · left; rw [h]; rfl
    · exact Or.inr h
  unfold compute_next_generation
  rcases generation_loop_safe cities n hn (d.pop_.length / 2) d [] hcount hperm
    (by simp) with hs | ⟨⟨d1, new_pop⟩, hs, hnew⟩
  · rw [hs]; exact Or.inl rfl
  rw [hs]
  refine Or.inr ⟨_, rfl, fun c hc => ?_⟩
  have hp := hnew c hc
  have hl := perm_range_length hp
  exact ⟨by rw [is_valid_iff_perm, hl]; exact hp, hl⟩

theorem compute_next_generation_valid_witness :
    (∀ c ∈ example_deme.pop_, is_valid c.order_ = true ∧ c.order_.length = 4)
    ∧ compute_next_generation rectangle example_deme = .ok example_next
    ∧ SafeResult (compute_next_generation rectangle example_deme)
        (fun d1 => ∀ c ∈ d1.pop_, is_valid c.order_ = true ∧ c.order_.length = 4) :=
  ⟨by decide, by decide!,
   compute_next_generation_valid rectangle example_deme 4 (by decide) (by decide)⟩

/-! ## Fitness, window draw, degenerate crossovers -/

/-- C11: fitness is strictly decreasing in tour length: for two tours with
`0 < total_path_distance A < total_path_distance B`, the fitness of `A` is greater than
the fitness of `B`, which is positive. -/
theorem get_fitness_strictly_decreasing (cities : Cities) (a b : Chromosome)
    (ha : 0 < cities.total_path_distance a.order_)
    (hab : cities.total_path_distance a.order_ < cities.total_path_distance b.order_) :
    get_fitness cities b < get_fitness cities a ∧ 0 < get_fitness cities b := by
  unfold get_fitness
  exact ⟨one_div_lt_one_div_of_lt ha hab, one_div_pos.mpr (ha.trans hab)⟩

theorem get_fitness_strictly_decreasing_witness :
    0 < rectangle.total_path_distance (Chromosome.mk [0, 1, 2, 3] []).order_
    ∧ rectangle.total_path_distance (Chromosome.mk [0, 1, 2, 3] []).order_
        < rectangle.total_path_distance (Chromosome.mk [0, 2, 1, 3] []).order_
    ∧ get_fitness rectangle ⟨[0, 2, 1, 3], []⟩ < get_fitness rectangle ⟨[0, 1, 2, 3], []⟩
    ∧ 0 < get_fitness rectangle ⟨[0, 2, 1, 3], []⟩ :=
  ⟨by decide!, by decide!,
   get_fitness_strictly_decreasing rectangle ⟨[0, 1, 2, 3], []⟩ ⟨[0, 2, 1, 3], []⟩
     (by decide!) (by decide!)⟩

/-- C14: on a chromosome of length `n ≥ 1`, whatever the engine delivers, the window
drawn by `recombine` satisfies `start ≤ finish < n`, with `start < finish` when
`finish > 0` and `start = finish = 0` otherwise. -/
theorem draw_window_bounds (n g1 g2 : Nat) (gs : List Nat) (hn : 1 ≤ n) :
    ∃ start finish gen, draw_window n (g1 :: g2 :: gs) = .ok (start, finish, gen)
      ∧ start ≤ finish ∧ finish < n
      ∧ (0 < finish → start < finish) ∧ (finish = 0 → start = 0) := by
  unfold draw_window
  by_cases h : g1 % n = 0
  · exact ⟨0, 0, g2 :: gs, by simp [h], le_refl _, by omega, fun h0 => h0, fun _ => rfl⟩
  · have hlt : g2 % (g1 % n) < g1 % n := Nat.mod_lt _ (by omega)
    exact ⟨g2 % (g1 % n), g1 % n, gs, by simp [h], hlt.le, Nat.mod_lt _ (by omega),
      fun _ => hlt, fun h0 => absurd h0 h⟩

theorem draw_window_bounds_witness :
    1 ≤ 5
    ∧ ∃ start finish gen, draw_window 5 (3 :: 1 :: [9]) = .ok (start, finish, gen)
      ∧ start ≤ finish ∧ finish < 5
      ∧ (0 < finish → start < finish) ∧ (finish = 0 → start = 0) :=
  ⟨by decide, draw_window_bounds 5 3 1 [9] (by decide)⟩

theorem resample_one (gs : List Nat) : resample 1 0 gs 0 = .error .starved := by
  induction gs with
  | nil => simp [resample]
  | cons g gs ih =>
    unfold resample
    rw [if_pos rfl, Nat.mod_one]
    exact ih

/-- C16 (the code departs from the claim): on the chromosome of length 1, whatever its
engine delivers, `mutate` does not return: both indices are `0` on every draw, so the
resampling loop uses up every output. -/
theorem mutate_single_city_never_returns :
    ∀ gen : List Nat, mutate ⟨[0], gen⟩ = .error .starved := by
  intro gen
  unfold mutate mutate_swap
  match gen with
  | [] => rfl
  | [_] => rfl
  | g1 :: g2 :: gs =>
    simp only [List.length_singleton, Nat.mod_one, resample_one]
    rfl
theorem crossover_spec_empty (p1 p2 : List Nat) : crossover_spec p1 p2 0 0 = p2 := by
  simp [crossover_spec, outside, window]

theorem window_append_drop (p : List Nat) (b e : Nat) (hbe : b ≤ e) :
    window p b e ++ p.drop e = p.drop b := by
  have h : p.drop e = (p.drop b).drop (e - b) := by
    rw [List.drop_drop]
    congr 1
    omega
  rw [h]
  exact List.take_append_drop _ _

theorem outside_self (p : List Nat) (hnd : p.Nodup) (b e : Nat) (hbe : b ≤ e) :
    outside p p b e = p.take b ++ p.drop e := by
  have hsplit : p = p.take b ++ (window p b e ++ p.drop e) := by
    rw [window_append_drop p b e hbe, List.take_append_drop]
  have hnd2 : (p.take b ++ (window p b e ++ p.drop e)).Nodup := by
    rw [← hsplit]; exact hnd
  obtain ⟨-, hnd3, hdis1⟩ := List.nodup_append.mp hnd2
  obtain ⟨-, -, hdis2⟩ := List.nodup_append.mp hnd3
  have hfil := congrArg (List.filter (fun v => !decide (v ∈ window p b e))) hsplit
  unfold outside
  rw [hfil, List.filter_append, List.filter_append]
  have h1 : (p.take b).filter (fun v => !decide (v ∈ window p b e)) = p.take b := by
    rw [List.filter_eq_self]
    intro a ha
    have : a ∉ window p b e := fun hw => hdis1 ha (List.mem_append_left _ hw)
    simp [this]
  have h2 : (window p b e).filter (fun v => !decide (v ∈ window p b e)) = [] := by
    rw [List.filter_eq_nil_iff]
    intro a ha
    simp [ha]
  have h3 : (p.drop e).filter (fun v => !decide (v ∈ window p b e)) = p.drop e := by
    rw [List.filter_eq_self]
    intro a ha
    have : a ∉ window p b e := fun hw => hdis2 hw ha
    simp [this]
  rw [h1, h2, h3, List.nil_append]

theorem crossover_spec_self (p : List Nat) (hnd : p.Nodup) (b e : Nat) (hbe : b ≤ e)
    (he : e ≤ p.length) : crossover_spec p p b e = p := by
  have hlen : (p.take b).length = b := by
    rw [List.length_take]; omega
  unfold crossover_spec
  rw [outside_self p hnd b e hbe, List.take_left' hlen, List.drop_left' hlen,
    window_append_drop p b e hbe, List.take_append_drop]

/-- C18: for valid parents of the same length `n` and a window `0 ≤ b ≤ e ≤ n`, the loop
of `create_crossover_child` runs to completion. A read of `p2[j]` with `j ≥ n` makes the
call undefined and a failure of `assert(j < p2.size())` makes it fail, so every read of
the secondary parent is in bounds and the assertion holds at every position outside the
window. -/
theorem crossover_reads_in_bounds (p1 p2 : Chromosome) (n b e : Nat)
    (hv1 : is_valid p1.order_ = true) (hl1 : p1.order_.length = n)
    (hv2 : is_valid p2.order_ = true) (hl2 : p2.order_.length = n)
    (hbe : b ≤ e) (he : e ≤ n) :
    (∃ order, crossover_order p1.order_ p2.order_ b e = .ok order)
      ∧ ∀ f, create_crossover_child p1 p2 b e ≠ .error f := by
  have h1 := perm_of_is_valid hv1 hl1
  have h2 := perm_of_is_valid hv2 hl2
  refine ⟨⟨_, crossover_order_eq p1.order_ p2.order_ n b e h1 h2 hbe he⟩, fun f hf => ?_⟩
  rw [create_crossover_child_eq p1 p2 n b e h1 h2 hbe he] at hf
  cases hf

theorem crossover_reads_in_bounds_witness :
    (∃ order, crossover_order (Chromosome.mk [0, 1, 2, 3, 4] [7]).order_
        (Chromosome.mk [4, 3, 2, 1, 0] [5]).order_ 1 3 = .ok order)
      ∧ ∀ f, create_crossover_child ⟨[0, 1, 2, 3, 4], [7]⟩ ⟨[4, 3, 2, 1, 0], [5]⟩ 1 3
          ≠ .error f :=
  crossover_reads_in_bounds ⟨[0, 1, 2, 3, 4], [7]⟩ ⟨[4, 3, 2, 1, 0], [5]⟩ 5 1 3
    (by decide) rfl (by decide) rfl (by decide) (by decide)

/-- C19: two parents that hold the same valid order `p` breed unchanged copies: for
every window `0 ≤ b ≤ e ≤ n` both calls of `create_crossover_child` return a child of
order `p`, and so both children returned by `recombine` have order `p`, whatever the
engine delivers. -/
theorem recombine_same_order (p gen1 gen2 : List Nat) (n b e : Nat)
    (hv : is_valid p = true) (hl : p.length = n) (hbe : b ≤ e) (he : e ≤ n) :
    create_crossover_child ⟨p, gen1⟩ ⟨p, gen2⟩ b e = .ok ⟨p, gen1⟩
      ∧ create_crossover_child ⟨p, gen2⟩ ⟨p, gen1⟩ b e = .ok ⟨p, gen2⟩
      ∧ (∀ g1 g2 gs, 1 ≤ n → gen1 = g1 :: g2 :: gs →
          ∃ this1 child1 child2,
            recombine ⟨p, gen1⟩ ⟨p, gen2⟩ = .ok (this1, child1, child2)
              ∧ child1.order_ = p ∧ child2.order_ = p) := by
  have hp := perm_of_is_valid hv hl
  have hnd : p.Nodup := hp.nodup_iff.mpr (List.nodup_range n)
  have hself : ∀ s f, s ≤ f → f ≤ n → crossover_spec p p s f = p :=
    fun s f hsf hfn => crossover_spec_self p hnd s f hsf (by omega)
  refine ⟨?_, ?_, ?_⟩
  · rw [create_crossover_child_eq ⟨p, gen1⟩ ⟨p, gen2⟩ n b e hp hp hbe he]
    simp only [hself b e hbe he]
  · rw [create_crossover_child_eq ⟨p, gen2⟩ ⟨p, gen1⟩ n b e hp hp hbe he]
    simp only [hself b e hbe he]
  · intro g1 g2 gs hn hgen
    obtain ⟨start, finish, gen, hd, hsf, hfn⟩ := draw_window_spec n g1 g2 gs hn
    rw [← hgen] at hd
    refine ⟨_, _, _,
      recombine_eq ⟨p, gen1⟩ ⟨p, gen2⟩ n hn hp hp start finish gen hd hsf (by omega), ?_, ?_⟩
    · exact hself start finish hsf (by omega)
    · exact hself start finish hsf (by omega)

theorem recombine_same_order_witness :
    create_crossover_child ⟨[2, 0, 3, 1], [3, 1]⟩ ⟨[2, 0, 3, 1], [8]⟩ 1 3
        = .ok ⟨[2, 0, 3, 1], [3, 1]⟩
      ∧ create_crossover_child ⟨[2, 0, 3, 1], [8]⟩ ⟨[2, 0, 3, 1], [3, 1]⟩ 1 3
        = .ok ⟨[2, 0, 3, 1], [8]⟩
      ∧ (∀ g1 g2 gs, 1 ≤ 4 → [3, 1] = g1 :: g2 :: gs →
          ∃ this1 child1 child2,
            recombine ⟨[2, 0, 3, 1], [3, 1]⟩ ⟨[2, 0, 3, 1], [8]⟩
                = .ok (this1, child1, child2)
              ∧ child1.order_ = [2, 0, 3, 1] ∧ child2.order_ = [2, 0, 3, 1]) :=
  recombine_same_order [2, 0, 3, 1] [3, 1] [8] 4 1 3 (by decide) rfl (by decide) (by decide)

/-- C20: when the first output of the engine gives `finish = 0`, the window is empty and
`recombine` returns copies in exchanged order: for valid parents of the same length the
first child has the order of the other parent and the second child the order of the
receiver. -/
theorem recombine_empty_window (this other : Chromosome) (n g1 : Nat) (gs : List Nat)
    (hn : 1 ≤ n)
    (hv1 : is_valid this.order_ = true) (hl1 : this.order_.length = n)
    (hv2 : is_valid other.order_ = true) (hl2 : other.order_.length = n)
    (hg : this.generator_ = g1 :: gs) (h0 : g1 % n = 0) :
    draw_window n this.generator_ = .ok (0, 0, gs)
      ∧ ∃ this1 child1 child2, recombine this other = .ok (this1, child1, child2)
          ∧ child1.order_ = other.order_ ∧ child2.order_ = this.order_ := by
  have h1 := perm_of_is_valid hv1 hl1
  have h2 := perm_of_is_valid hv2 hl2
  have hd : draw_window n this.generator_ = .ok (0, 0, gs) := by
    rw [hg]
    simp only [draw_window, h0, if_true]
  exact ⟨hd, _, _, _, recombine_eq this other n hn h1 h2 0 0 gs hd (le_refl _) (by omega),
    crossover_spec_empty _ _, crossover_spec_empty _ _⟩

theorem recombine_empty_window_witness :
    draw_window 4 (Chromosome.mk [0, 1, 2, 3] [8, 5]).generator_ = .ok (0, 0, [5])
      ∧ ∃ this1 child1 child2,
          recombine ⟨[0, 1, 2, 3], [8, 5]⟩ ⟨[0, 2, 1, 3], [6]⟩ = .ok (this1, child1, child2)
          ∧ child1.order_ = (Chromosome.mk [0, 2, 1, 3] [6]).order_
          ∧ child2.order_ = (Chromosome.mk [0, 1, 2, 3] [8, 5]).order_ :=
  recombine_empty_window ⟨[0, 1, 2, 3], [8, 5]⟩ ⟨[0, 2, 1, 3], [6]⟩ 4 8 [5]
    (by decide) (by decide) rfl (by decide) rfl rfl (by decide)

/-! ## Best individual and selection -/

theorem get_best_scan_some (cities : Cities) (rest : List Chromosome) :
    ∀ k b best_fit, b < k →
      ∃ j, get_best_scan cities rest k (some b) best_fit = some j ∧ j < k + rest.length := by
  induction rest with
  | nil =>
    intro k b best_fit hb
    exact ⟨b, rfl, by simpa using hb⟩
  | cons v t ih =>
    intro k b best_fit hb
    unfold get_best_scan
    by_cases hc : get_fitness cities v < best_fit
    · rw [if_pos hc]
      obtain ⟨j, hj, hlt⟩ := ih (k + 1) k (get_fitness cities v) (by omega)
      exact ⟨j, hj, by simp only [List.length_cons]; omega⟩
    · rw [if_neg hc]
      obtain ⟨j, hj, hlt⟩ := ih (k + 1) b best_fit (by omega)
      exact ⟨j, hj, by simp only [List.length_cons]; omega⟩

theorem get_best_scan_none (cities : Cities) (rest : List Chromosome) :
    ∀ k best_fit, (∃ c ∈ rest, get_fitness cities c < best_fit) →
      ∃ j, get_best_scan cities rest k none best_fit = some j ∧ j < k + rest.length := by
  induction rest with
  | nil =>
    intro k best_fit h
    obtain ⟨c, hc, -⟩ := h
    simp at hc
  | cons v t ih =>
    intro k best_fit h
    unfold get_best_scan
    by_cases hc : get_fitness cities v < best_fit
    · rw [if_pos hc]
      obtain ⟨j, hj, hlt⟩ := get_best_scan_some cities t (k + 1) k (get_fitness cities v)
        (by omega)
      exact ⟨j, hj, by simp only [List.length_cons]; omega⟩
    · rw [if_neg hc]
      obtain ⟨c, hmem, hlt⟩ := h
      have hct : c ∈ t := by
        rcases List.mem_cons.mp hmem with h1 | h1
        · subst h1; exact absurd hlt hc
        · exact h1
      obtain ⟨j, hj, hjlt⟩ := ih (k + 1) best_fit ⟨c, hct, hlt⟩
      exact ⟨j, hj, by simp only [List.length_cons]; omega⟩

theorem get_best_scan_all_high (cities : Cities) (rest : List Chromosome) :
    ∀ k best_fit, (∀ c ∈ rest, ¬ get_fitness cities c < best_fit) →
      get_best_scan cities rest k none best_fit = none := by
  induction rest with
  | nil => intro k best_fit _; rfl
  | cons v t ih =>
    intro k best_fit h
    unfold get_best_scan
    rw [if_neg (h v (List.mem_cons_self _ _))]
    exact ih (k + 1) best_fit (fun c hc => h c (List.mem_cons_of_mem _ hc))

/-- C12 (counterexample to the claim as stated): a population of one individual, a tour
of length `1 / 131072` through two cities, whose fitness is positive and finite, namely
`131072`. `get_best` finds no individual below its starting value `best_fit = 100000`:
`best` stays null and the assertion fails. -/
theorem get_best_null_on_high_fitness :
    [Chromosome.mk [0, 1] []] ≠ []
      ∧ (∀ c ∈ [Chromosome.mk [0, 1] []], 0 < close_pair.total_path_distance c.order_)
      ∧ (∀ c ∈ [Chromosome.mk [0, 1] []], 0 < get_fitness close_pair c)
      ∧ close_pair.total_path_distance [0, 1] = 1 / 131072
      ∧ get_fitness close_pair ⟨[0, 1], []⟩ = 131072
      ∧ get_best close_pair ⟨[⟨[0, 1], []⟩], 0, [], none⟩ = .error .assertion := by
  decide!

/-- C12 (amended): for every population whose tours all have positive length, so that
every fitness is positive and finite, `get_best` returns the position of a member of the
population (`best` is not null and the assertion holds) exactly when some individual has
a fitness below `100000`, the starting value of `best_fit`; and `best` stays null, so
that the assertion fails, exactly when every fitness is `100000` or more. -/
theorem get_best_returns_member (cities : Cities) (d : Deme)
    (hpos : ∀ c ∈ d.pop_, 0 < cities.total_path_distance c.order_) :
    (∀ c ∈ d.pop_, 0 < get_fitness cities c)
      ∧ ((∃ c ∈ d.pop_, get_fitness cities c < 100000)
          ↔ ∃ k, get_best cities d = .ok k ∧ k < d.pop_.length)
      ∧ ((∀ c ∈ d.pop_, 100000 ≤ get_fitness cities c)
          ↔ get_best cities d = .error .assertion) := by
  have hlow : (∃ c ∈ d.pop_, get_fitness cities c < 100000) →
      ∃ k, get_best cities d = .ok k ∧ k < d.pop_.length := by
    intro h
    obtain ⟨j, hj, hlt⟩ := get_best_scan_none cities d.pop_ 0 100000 h
    refine ⟨j, ?_, by omega⟩
    unfold get_best
    rw [hj]
  have hhigh : (∀ c ∈ d.pop_, 100000 ≤ get_fitness cities c) →
      get_best cities d = .error .assertion := by
    intro h
    unfold get_best
    rw [get_best_scan_all_high cities d.pop_ 0 100000 (fun c hc => not_lt.mpr (h c hc))]
  refine ⟨fun c hc => ?_, ⟨hlow, fun hk => ?_⟩, ⟨hhigh, fun he => ?_⟩⟩
  · unfold get_fitness
    exact one_div_pos.mpr (hpos c hc)
  · by_contra hnone
    have hall : ∀ c ∈ d.pop_, 100000 ≤ get_fitness cities c := by
      intro c hc
      by_contra hlt
      exact hnone ⟨c, hc, not_le.mp hlt⟩
    obtain ⟨k, hk1, -⟩ := hk
    rw [hhigh hall] at hk1
    cases hk1
  · intro c hc
    by_contra hlt
    obtain ⟨k, hk1, -⟩ := hlow ⟨c, hc, not_le.mp hlt⟩
    rw [he] at hk1
    cases hk1

theorem get_best_returns_member_witness :
    (∀ c ∈ example_deme.pop_, 0 < rectangle.total_path_distance c.order_)
      ∧ (∃ c ∈ example_deme.pop_, get_fitness rectangle c < 100000)
      ∧ get_best rectangle example_deme = .ok 1
      ∧ (∀ c ∈ example_deme.pop_, 0 < get_fitness rectangle c)
      ∧ ((∃ c ∈ example_deme.pop_, get_fitness rectangle c < 100000)
          ↔ ∃ k, get_best rectangle example_deme = .ok k ∧ k < example_deme.pop_.length)
      ∧ ((∀ c ∈ example_deme.pop_, 100000 ≤ get_fitness rectangle c)
          ↔ get_best rectangle example_deme = .error .assertion) :=
  ⟨by decide!, ⟨⟨[0, 1, 2, 3], [1, 2, 3, 4]⟩, by decide, by decide!⟩, by decide!,
   get_best_returns_member rectangle example_deme (by decide!)⟩

theorem select_parent_draw (cities : Cities) (d : Deme) (u : ℚ) (us : List ℚ)
    (hg : d.generator_ = u :: us) (k : Nat) (d1 : Deme)
    (h : select_parent cities d = .ok (k, d1)) :
    select_from cities d.pop_ (select_draw cities d u) = .ok k := by
  unfold select_parent at h
  rw [hg] at h
  simp only at h
  unfold select_draw
  match hs : select_from cities d.pop_ (d.distri_hi.getD (total_fitness cities d.pop_) * u) with
  | .error f => simp [hs] at h
  | .ok k1 =>
    rw [hs] at h
    simp only [Except.ok.injEq, Prod.mk.injEq] at h
    rw [h.1]

/-- C15 (the code departs from the claim): one generation step on `stale_deme`, whose
population has total fitness `191 / 1008`, leaves a population of total fitness `1 / 7`
while the static distribution of `select_parent` keeps the bound `191 / 1008`. On the
next call, with the canonical draw `9 / 10`, the value drawn is `191 / 1120`, which is not
below the total fitness of the population at the time of that call, and the scan returns
the individual at position 0 at once. -/
theorem select_parent_stale_bound :
    compute_next_generation rectangle stale_deme = .ok stale_next
      ∧ total_fitness rectangle stale_deme.pop_ = 191 / 1008
      ∧ stale_next.distri_hi = some (191 / 1008)
      ∧ total_fitness rectangle stale_next.pop_ = 1 / 7
      ∧ stale_next.generator_ = [9 / 10]
      ∧ select_draw rectangle stale_next (9 / 10) = 191 / 1120
      ∧ total_fitness rectangle stale_next.pop_ ≤ select_draw rectangle stale_next (9 / 10)
      ∧ select_parent rectangle stale_next = .ok (0, { stale_next with generator_ := [] }) := by
  decide!

/-! ## The mutation gate of the generation step -/

end TSP
